import Mathlib

/-!
Verification of the invocation engine of the smart-contract test chain
(contract-testing crate).

The data model below is embedded from
src/contract-testing/src/invocation/types.rs.  The operations on that
data (frame push/commit/discard, layered lookup, the driver loop of
invoke_entrypoint) are declared and documented there but their bodies
live outside the provided sources, so they are modelled from the spec.
Machine integers (u64 amounts, u32 indices) are embedded as Nat with an
explicit bound where overflow matters; BTreeMap is embedded as a
function into Option.
-/

/-- Upper bound of a u64 Amount; adding beyond this is a balance overflow. -/
def amountBound : Nat := 18446744073709551616

/-- A positive or negative delta for an Amount
(source: types.rs, enum AmountDelta). -/
inductive AmountDelta where
  | Positive : Nat → AmountDelta
  | Negative : Nat → AmountDelta
deriving DecidableEq

/-- Interpret a delta as an integer. -/
def AmountDelta.toInt : AmountDelta → Int
  | .Positive a => (a : Int)
  | .Negative a => -(a : Int)

/-- Modelled from the spec: accumulation of two balance deltas
("account deltas add; self-balance delta adds"); the combining code is
not under src/. -/
def AmountDelta.add : AmountDelta → AmountDelta → AmountDelta
  | .Positive a, .Positive b => .Positive (a + b)
  | .Positive a, .Negative b => if b ≤ a then .Positive (a - b) else .Negative (b - a)
  | .Negative a, .Positive b => if a ≤ b then .Positive (b - a) else .Negative (a - b)
  | .Negative a, .Negative b => .Negative (a + b)

/-- Data held for an account during execution of a contract entrypoint
(source: types.rs, struct AccountChanges). -/
structure AccountChanges where
  original_balance : Nat
  balance_delta : AmountDelta
deriving DecidableEq

/-- Data held for a contract during execution of a contract entrypoint
(source: types.rs, struct ContractChanges).  The state handle and the
module reference are embedded as opaque numerals. -/
structure ContractChanges where
  modification_index : Nat
  self_balance_delta : AmountDelta
  self_balance_original : Nat
  state : Option Nat
  module : Option Nat
deriving DecidableEq

/-- One overlay frame of account and contract modifications
(source: types.rs, struct Changes).  The two BTreeMaps are embedded as
functions into Option. -/
structure Changes where
  contracts : Nat → Option ContractChanges
  accounts : Nat → Option AccountChanges

/-- The frame with no modifications. -/
def emptyChanges : Changes :=
  { contracts := fun _ => none, accounts := fun _ => none }

instance : Inhabited Changes := ⟨emptyChanges⟩

/-- The set of Changes represented as a stack (source: types.rs, struct
ChangeSet).  The source keeps a Vec with the innermost frame last; the
embedding keeps a List with the innermost (top) frame first. -/
structure ChangeSet where
  stack : List Changes

instance : Inhabited ChangeSet := ⟨⟨[]⟩⟩

/-- Modelled from the spec: push_frame adds an empty frame
(spec 4.1); the body is not under src/. -/
def ChangeSet.push_frame (cs : ChangeSet) : ChangeSet :=
  ⟨emptyChanges :: cs.stack⟩

/-- Modelled from the spec: pop_discard removes the top frame without
merging (spec 4.1); the body is not under src/. -/
def ChangeSet.pop_discard (cs : ChangeSet) : ChangeSet :=
  ⟨cs.stack.tail⟩

/-- Modelled from the spec: merging one account entry of the top frame
into the entry beneath it: deltas add, the original balance of the frame
beneath is kept (spec 4.1). -/
def mergeAccountChanges (bottom top : AccountChanges) : AccountChanges :=
  { original_balance := bottom.original_balance
    balance_delta := bottom.balance_delta.add top.balance_delta }

/-- Modelled from the spec: merging one contract entry of the top frame
into the entry beneath it: the modification index takes the max, the
self-balance deltas add, a replaced state or module present in the top
frame overwrites the one beneath (spec 4.1). -/
def mergeContractChanges (bottom top : ContractChanges) : ContractChanges :=
  { modification_index := max bottom.modification_index top.modification_index
    self_balance_delta := bottom.self_balance_delta.add top.self_balance_delta
    self_balance_original := bottom.self_balance_original
    state := match top.state with
             | some s => some s
             | none => bottom.state
    module := match top.module with
              | some m => some m
              | none => bottom.module }

/-- Modelled from the spec: merge a whole top frame into the frame
beneath it; entries present in only one frame are kept unchanged
(spec 4.1). -/
def mergeFrames (bottom top : Changes) : Changes :=
  { contracts := fun c =>
      match bottom.contracts c, top.contracts c with
      | some eb, some et => some (mergeContractChanges eb et)
      | some eb, none => some eb
      | none, some et => some et
      | none, none => none
    accounts := fun a =>
      match bottom.accounts a, top.accounts a with
      | some eb, some et => some (mergeAccountChanges eb et)
      | some eb, none => some eb
      | none, some et => some et
      | none, none => none }

/-- Modelled from the spec: pop_commit merges the top frame into the
frame beneath and removes the top frame (spec 4.1); the body is not
under src/. -/
def ChangeSet.pop_commit (cs : ChangeSet) : ChangeSet :=
  match cs.stack with
  | top :: next :: rest => ⟨mergeFrames next top :: rest⟩
  | s => ⟨s⟩

/-- Modelled from the spec: layered lookup of a contract entry, walking
the stack top-to-bottom and returning the first frame that has an entry
(spec 4.1). -/
def lookupContractFrames (frames : List Changes) (c : Nat) : Option ContractChanges :=
  match frames with
  | [] => none
  | fr :: rest =>
    match fr.contracts c with
    | some e => some e
    | none => lookupContractFrames rest c

/-- Modelled from the spec: layered lookup of an account entry, walking
the stack top-to-bottom and returning the first frame that has an entry
(spec 4.1). -/
def lookupAccountFrames (frames : List Changes) (a : Nat) : Option AccountChanges :=
  match frames with
  | [] => none
  | fr :: rest =>
    match fr.accounts a with
    | some e => some e
    | none => lookupAccountFrames rest a

/-- Layered lookup of a contract entry in a change set. -/
def ChangeSet.lookupContract (cs : ChangeSet) (c : Nat) : Option ContractChanges :=
  lookupContractFrames cs.stack c

/-- Layered lookup of an account entry in a change set. -/
def ChangeSet.lookupAccount (cs : ChangeSet) (a : Nat) : Option AccountChanges :=
  lookupAccountFrames cs.stack a

/-- The delta one frame contributes to an account balance. -/
def frameAccDelta (fr : Changes) (a : Nat) : Int :=
  match fr.accounts a with
  | some e => e.balance_delta.toInt
  | none => 0

/-- The delta one frame contributes to a contract self balance. -/
def frameContrDelta (fr : Changes) (c : Nat) : Int :=
  match fr.contracts c with
  | some e => e.self_balance_delta.toInt
  | none => 0

/-- The sum of the account deltas of a list of frames. -/
def stackAccDelta (frames : List Changes) (a : Nat) : Int :=
  match frames with
  | [] => 0
  | fr :: rest => frameAccDelta fr a + stackAccDelta rest a

/-- The sum of the contract self-balance deltas of a list of frames. -/
def stackContrDelta (frames : List Changes) (c : Nat) : Int :=
  match frames with
  | [] => 0
  | fr :: rest => frameContrDelta fr c + stackContrDelta rest c

/-- The persisted ledger store, read below the change stack
(spec section 6: persisted account balances and existence, contract
balances, state and module by address). -/
structure Ledger where
  accBal : Nat → Nat
  accExists : Nat → Bool
  contrBal : Nat → Nat
  contrState : Nat → Nat
  contrModule : Nat → Nat

instance : Inhabited Ledger :=
  ⟨{ accBal := fun _ => 0, accExists := fun _ => false, contrBal := fun _ => 0,
     contrState := fun _ => 0, contrModule := fun _ => 0 }⟩

/-- Effective balance of an account: persisted balance plus the sum of
its deltas across every active frame (spec section 3 invariant). -/
def effAcc (L : Ledger) (cs : ChangeSet) (a : Nat) : Int :=
  (L.accBal a : Int) + stackAccDelta cs.stack a

/-- Effective self balance of a contract: persisted balance plus the sum
of its deltas across every active frame (spec section 3 invariant). -/
def effContr (L : Ledger) (cs : ChangeSet) (c : Nat) : Int :=
  (L.contrBal c : Int) + stackContrDelta cs.stack c

/-- Current view of a contract state: the topmost entry, falling back to
the persisted store (spec 4.1). -/
def viewState (L : Ledger) (cs : ChangeSet) (c : Nat) : Nat :=
  match cs.lookupContract c with
  | some e =>
    match e.state with
    | some h => h
    | none => L.contrState c
  | none => L.contrState c

/-- Current view of a contract module: the topmost entry, falling back to
the persisted store (spec 4.1). -/
def viewModule (L : Ledger) (cs : ChangeSet) (c : Nat) : Nat :=
  match cs.lookupContract c with
  | some e =>
    match e.module with
    | some m => m
    | none => L.contrModule c
  | none => L.contrModule c

/-- Currently observed modification index of a contract: the topmost
entry, 0 when untracked. -/
def observedIdx (cs : ChangeSet) (c : Nat) : Nat :=
  match cs.lookupContract c with
  | some e => e.modification_index
  | none => 0

/-- The sender of a call or transfer: an account or a contract
(concordium Address). -/
inductive Party where
  | acc : Nat → Party
  | contr : Nat → Party
deriving DecidableEq

/-- Effective balance of a party. -/
def effParty (L : Ledger) (cs : ChangeSet) : Party → Int
  | .acc a => effAcc L cs a
  | .contr c => effContr L cs c

/-- Errors that occur due to the configuration of the test
(source: types.rs, enum TestConfigurationError). -/
inductive TestConfigurationError where
  | OutOfEnergy
  | BalanceOverflow
deriving DecidableEq

/-- Modelled from the spec: each step decrements the shared
remaining-energy counter before proceeding; if it would go to or below
zero the call fails with OutOfEnergy (spec 4.2).  Every modelled step
costs one unit. -/
def tickEnergy (e : Nat) : Except TestConfigurationError Nat :=
  if e ≤ 1 then .error .OutOfEnergy else .ok (e - 1)

/-- Final result kinds of the external engine (spec 4.2 step 3;
engine InvokeResponse Success/Reject/Trap). -/
inductive InvokeOutcome where
  | success
  | reject
  | trap
deriving DecidableEq

instance : Inhabited InvokeOutcome := ⟨.success⟩

/-- The response from invoking an entrypoint (source: types.rs, struct
InvokeEntrypointResponse); each log entry is embedded as a numeral. -/
structure InvokeEntrypointResponse where
  invoke_response : InvokeOutcome
  logs : List Nat
deriving DecidableEq

/-- Which interrupt of the engine a resumption directive reacts to, and
how it was handled: immediately (transfer, query, or a call that failed
its amount check before dispatch) or by running a sub-call to
completion. -/
inductive InterruptKind where
  | transfer
  | query
  | callImmediate
  | callCompleted
deriving DecidableEq

/-- Resumption directive (source: types.rs, enum Next).  Resume carries
the target address of the suspended invocation record and the optional
response; Initial carries the sender and the trace checkpoint. -/
inductive Next where
  | Resume : Nat → Option Bool → Next
  | Initial : Party → Nat → Next
deriving DecidableEq

/-- Modelled from the spec: the behavior of the external byte-code
engine for one entrypoint call, as the sequence of interrupts it raises
(transfer, nested call, query), the log entries and direct state or
module writes it performs, and its final result (spec 4.2 step 3; the
engine is an external collaborator, consumed as an opaque script). -/
inductive EngineScript where
  | done : InvokeOutcome → EngineScript
  | log : Nat → EngineScript → EngineScript
  | writeState : Nat → EngineScript → EngineScript
  | writeModule : Nat → EngineScript → EngineScript
  | transfer : Nat → Nat → EngineScript → EngineScript
  | query : Nat → EngineScript → EngineScript
  | callThen : Nat → Nat → EngineScript → EngineScript → EngineScript

/-- The mutable state of the entrypoint invocation handler: change
stack, remaining energy, trace-element log and the emitted resumption
directives (each tagged with the interrupt kind it reacted to). -/
structure St where
  cs : ChangeSet
  energy : Nat
  trace : List Nat
  dirs : List (InterruptKind × Next)

instance : Inhabited St := ⟨⟨default, 0, [], []⟩⟩

/-- Result of driving one entrypoint call body to its final engine
result: the outcome, the logs emitted by this call, and the handler
state. -/
structure ExecRes where
  fin : InvokeOutcome
  logs : List Nat
  st : St

instance : Inhabited ExecRes := ⟨⟨default, [], default⟩⟩

/-- Modelled from the spec: a frame's account entry is created on first
touch within the frame, snapshotting the persisted balance and starting
from a fresh zero delta; an inherited view stays available through the
layered lookup (spec section 3). -/
def freshAccountEntry (L : Ledger) (a : Nat) : AccountChanges :=
  { original_balance := L.accBal a, balance_delta := .Positive 0 }

/-- Modelled from the spec: a frame's contract entry is created on first
touch within the frame; the modification index, the replaced state and
module are copied from the current layered view so that the entry is the
current view of the contract, while the self-balance delta starts fresh
at zero (spec section 3). -/
def freshContractEntry (L : Ledger) (cs : ChangeSet) (c : Nat) : ContractChanges :=
  match cs.lookupContract c with
  | some e =>
    { modification_index := e.modification_index
      self_balance_delta := .Positive 0
      self_balance_original := L.contrBal c
      state := e.state
      module := e.module }
  | none =>
    { modification_index := 0
      self_balance_delta := .Positive 0
      self_balance_original := L.contrBal c
      state := none
      module := none }

/-- Apply a function to the top frame of the stack. -/
def ChangeSet.modifyTop (cs : ChangeSet) (g : Changes → Changes) : ChangeSet :=
  match cs.stack with
  | [] => cs
  | top :: rest => ⟨g top :: rest⟩

/-- The account entry of a frame, created on first touch. -/
def accEntryOrFresh (L : Ledger) (top : Changes) (a : Nat) : AccountChanges :=
  match top.accounts a with
  | some e => e
  | none => freshAccountEntry L a

/-- The contract entry of a frame, created on first touch. -/
def contrEntryOrFresh (L : Ledger) (cs : ChangeSet) (top : Changes) (c : Nat) :
    ContractChanges :=
  match top.contracts c with
  | some e => e
  | none => freshContractEntry L cs c

/-- Update (creating on first touch) the account entry of the top frame. -/
def touchAccount (L : Ledger) (cs : ChangeSet) (a : Nat)
    (g : AccountChanges → AccountChanges) : ChangeSet :=
  cs.modifyTop (fun top =>
    { top with accounts := fun x =>
        if x = a then some (g (accEntryOrFresh L top a)) else top.accounts x })

/-- Update (creating on first touch) the contract entry of the top frame. -/
def touchContract (L : Ledger) (cs : ChangeSet) (c : Nat)
    (g : ContractChanges → ContractChanges) : ChangeSet :=
  cs.modifyTop (fun top =>
    { top with contracts := fun x =>
        if x = c then some (g (contrEntryOrFresh L cs top c)) else top.contracts x })

/-- Modelled from the spec: a direct write of a contract's own state
replaces the state handle in the top frame and strictly increases the
modification index (spec section 3 and glossary). -/
def ChangeSet.writeStateOp (L : Ledger) (cs : ChangeSet) (c : Nat) (h : Nat) : ChangeSet :=
  touchContract L cs c (fun e =>
    { e with state := some h, modification_index := e.modification_index + 1 })

/-- Modelled from the spec: a direct write of a contract's own module
replaces the module reference in the top frame and strictly increases
the modification index (spec section 3 and glossary). -/
def ChangeSet.writeModuleOp (L : Ledger) (cs : ChangeSet) (c : Nat) (m : Nat) : ChangeSet :=
  touchContract L cs c (fun e =>
    { e with module := some m, modification_index := e.modification_index + 1 })

/-- Apply a delta to a party's balance entry in the top frame. -/
def applyPartyDelta (L : Ledger) (cs : ChangeSet) (p : Party) (d : AmountDelta) : ChangeSet :=
  match p with
  | .acc a => touchAccount L cs a (fun e => { e with balance_delta := e.balance_delta.add d })
  | .contr c => touchContract L cs c (fun e => { e with self_balance_delta := e.self_balance_delta.add d })

/-- Modelled from the spec: resolve a transfer interrupt from the
executing contract to an account.  The receiver must exist and the
sender must have a sufficient available balance, otherwise the transfer
resolves to a failure response without touching the stack; an overflow
of the receiver balance is fatal (spec 4.2 step 4, section 3 invariant,
section 7).  On success the two deltas are applied in the current top
frame. -/
def resolveTransfer (L : Ledger) (cs : ChangeSet) (fromC : Nat) (toA : Nat)
    (amt : Nat) : Except TestConfigurationError (Option ChangeSet) :=
  if L.accExists toA = false then .ok none
  else if effContr L cs fromC < (amt : Int) then .ok none
  else if (amountBound : Int) ≤ effAcc L cs toA + (amt : Int) then .error .BalanceOverflow
  else
    .ok (some (applyPartyDelta L
      (applyPartyDelta L cs (.contr fromC) (.Negative amt)) (.acc toA) (.Positive amt)))

/-- Modelled from the spec: begin a nested or top-level call: check the
sender's available balance against the amount sent (failing with a
reject response if insufficient and fatally on receiver overflow), push
a fresh frame and move the amount from the sender to the callee inside
the pushed frame, recording the Initial directive carrying the trace
checkpoint (spec 4.2 steps 1 and 5). -/
def startCall (L : Ledger) (sender : Party) (callee : Nat) (amt : Nat)
    (st : St) : Except TestConfigurationError (Option St) :=
  if effParty L st.cs sender < (amt : Int) then .ok none
  else if (amountBound : Int) ≤ effContr L st.cs callee + (amt : Int) then .error .BalanceOverflow
  else
    .ok (some
      { st with
        cs := applyPartyDelta L
                (applyPartyDelta L st.cs.push_frame sender (.Negative amt))
                (.contr callee) (.Positive amt)
        dirs := st.dirs ++ [(.callCompleted, .Initial sender st.trace.length)] })

/-- Modelled from the spec: finish a nested call.  On success the
callee's frame is committed into the caller's frame and a trace element
is appended; on reject or trap the callee's frame is discarded and the
trace log is truncated back to the checkpoint taken when the call began.
In both cases a Resume directive for the caller is produced; its
response field is none because the resumption is after a call to a
contract (source comment on Next::Resume in types.rs). -/
def settleCall (caller : Nat) (checkpointTrace : List Nat) (res : ExecRes) : Bool × St :=
  match res.fin with
  | .success =>
    (true,
      { res.st with
        cs := res.st.cs.pop_commit
        trace := res.st.trace ++ [1]
        dirs := res.st.dirs ++ [(.callCompleted, .Resume caller none)] })
  | _ =>
    (false,
      { res.st with
        cs := res.st.cs.pop_discard
        trace := checkpointTrace
        dirs := res.st.dirs ++ [(.callCompleted, .Resume caller none)] })

/-- Modelled from the spec: drive the engine script of the contract at
address addr to its final result, resolving each interrupt: transfers
and queries immediately (producing a Resume directive that carries the
response), nested calls by recursively starting, executing and settling
the callee (spec 4.2 steps 3 to 7). -/
def exec (L : Ledger) (addr : Nat) (t : EngineScript) (st : St) :
    Except TestConfigurationError ExecRes :=
  match t with
  | .done fin => .ok { fin := fin, logs := [], st := st }
  | .log n rest =>
    match tickEnergy st.energy with
    | .error e => .error e
    | .ok e1 =>
      match exec L addr rest { st with energy := e1 } with
      | .error e => .error e
      | .ok r => .ok { r with logs := n :: r.logs }
  | .writeState h rest =>
    match tickEnergy st.energy with
    | .error e => .error e
    | .ok e1 =>
      exec L addr rest { st with energy := e1, cs := st.cs.writeStateOp L addr h }
  | .writeModule m rest =>
    match tickEnergy st.energy with
    | .error e => .error e
    | .ok e1 =>
      exec L addr rest { st with energy := e1, cs := st.cs.writeModuleOp L addr m }
  | .transfer toA amt rest =>
    match tickEnergy st.energy with
    | .error e => .error e
    | .ok e1 =>
      match resolveTransfer L st.cs addr toA amt with
      | .error e => .error e
      | .ok none =>
        exec L addr rest
          { st with energy := e1,
                    dirs := st.dirs ++ [(.transfer, .Resume addr (some false))] }
      | .ok (some cs') =>
        exec L addr rest
          { st with energy := e1, cs := cs', trace := st.trace ++ [0],
                    dirs := st.dirs ++ [(.transfer, .Resume addr (some true))] }
  | .query q rest =>
    match tickEnergy st.energy with
    | .error e => .error e
    | .ok e1 =>
      exec L addr rest
        { st with energy := e1,
                  dirs := st.dirs ++ [(.query, .Resume addr (some (L.accExists q)))] }
  | .callThen callee amt body rest =>
    match tickEnergy st.energy with
    | .error e => .error e
    | .ok e1 =>
      match startCall L (.contr addr) callee amt { st with energy := e1 } with
      | .error e => .error e
      | .ok none =>
        exec L addr rest
          { st with energy := e1,
                    dirs := st.dirs ++ [(.callImmediate, .Resume addr (some false))] }
      | .ok (some st2) =>
        match exec L callee body st2 with
        | .error e => .error e
        | .ok res => exec L addr rest (settleCall addr st.trace res).2

/-- Modelled from the spec: the final response of one call: the engine
result plus the emitted logs; the logs of a rejecting or trapping call
are not retained (spec 4.2, source comment on
InvokeEntrypointResponse.logs in types.rs). -/
def mkResponse (res : ExecRes) : InvokeEntrypointResponse :=
  { invoke_response := res.fin
    logs := if res.fin = .success then res.logs else [] }

/-- Modelled from the spec: invoke_entrypoint drives one top-level call
and its full sub-tree to an InvokeEntrypointResponse: charge the lookup
cost, start the call (frame push and amount move), execute the engine
script, then commit the frame on success or discard it and truncate the
trace on reject or trap; fatal configuration errors abort the whole
transaction (spec 4.2, section 6). -/
def invoke_entrypoint (L : Ledger) (invoker : Nat) (addr : Nat) (amt : Nat)
    (energy : Nat) (tree : EngineScript) :
    Except TestConfigurationError (InvokeEntrypointResponse × St) :=
  let st0 : St := { cs := ⟨[]⟩, energy := energy, trace := [], dirs := [] }
  match tickEnergy st0.energy with
  | .error e => .error e
  | .ok e1 =>
    match startCall L (.acc invoker) addr amt { st0 with energy := e1 } with
    | .error e => .error e
    | .ok none => .ok ({ invoke_response := .reject, logs := [] }, { st0 with energy := e1 })
    | .ok (some st2) =>
      match exec L addr tree st2 with
      | .error e => .error e
      | .ok res =>
        match res.fin with
        | .success => .ok (mkResponse res, res.st)
        | _ => .ok (mkResponse res, { res.st with cs := res.st.cs.pop_discard, trace := [] })

/-- The simulated chain: the persisted ledger store (source: Chain in
the contract-testing crate; only the persisted store is relevant
here). -/
structure Chain where
  ledger : Ledger

/-- Available balance of an account on the chain (test helper
account_balance_available). -/
def Chain.account_balance_available (ch : Chain) (a : Nat) : Nat :=
  ch.ledger.accBal a

/-- Deduct a transaction fee from the invoker's persisted balance. -/
def chargeFee (L : Ledger) (invoker : Nat) (fee : Nat) : Ledger :=
  { L with accBal := fun a => if a = invoker then L.accBal a - fee else L.accBal a }

/-- Modelled from the spec: apply a fully committed change set to the
persisted store (spec section 6: callers apply a committed top-level
frame to the store only after the whole transaction succeeds). -/
def applyChanges (L : Ledger) (cs : ChangeSet) : Ledger :=
  { accBal := fun a => (effAcc L cs a).toNat
    accExists := L.accExists
    contrBal := fun c => (effContr L cs c).toNat
    contrState := fun c => viewState L cs c
    contrModule := fun c => viewModule L cs c }

/-- Modelled from the spec: a contract update transaction: run the
entrypoint, commit the resulting changes to the store on success, and
charge the invoker the fee for the energy consumed; a fatal
configuration error discards all frames and charges the reserved
energy (spec section 7, tests basics.rs). -/
def contract_update (ch : Chain) (invoker : Nat) (addr : Nat) (amt : Nat)
    (energy : Nat) (tree : EngineScript) :
    Except TestConfigurationError InvokeEntrypointResponse × Chain :=
  match invoke_entrypoint ch.ledger invoker addr amt energy tree with
  | .error e => (.error e, ⟨chargeFee ch.ledger invoker energy⟩)
  | .ok (resp, st) =>
    if resp.invoke_response = .success then
      (.ok resp, ⟨chargeFee (applyChanges ch.ledger st.cs) invoker (energy - st.energy)⟩)
    else
      (.ok resp, ⟨chargeFee ch.ledger invoker (energy - st.energy)⟩)

/-- Modelled from the spec: a read-only contract invocation: run the
entrypoint but never apply the change set to the store and never charge
a fee (tests basics.rs: the account is not charged for the invoke). -/
def contract_invoke (ch : Chain) (invoker : Nat) (addr : Nat) (amt : Nat)
    (energy : Nat) (tree : EngineScript) :
    Except TestConfigurationError InvokeEntrypointResponse × Chain :=
  (Except.map Prod.fst (invoke_entrypoint ch.ledger invoker addr amt energy tree), ch)

/-- Error projection of a fallible result. -/
def errOf {α : Type} : Except TestConfigurationError α → Option TestConfigurationError
  | .error e => some e
  | .ok _ => none

/-- All accounts and contracts have a non-negative available balance
(spec section 3 invariant). -/
def NonNeg (L : Ledger) (cs : ChangeSet) : Prop :=
  (∀ a, 0 ≤ effAcc L cs a) ∧ (∀ c, 0 ≤ effContr L cs c)

/-- Concrete ledger used by the witness instantiations; account 9 sits
one unit below the amount bound so that crediting it overflows. -/
def wL : Ledger :=
  { accBal := fun a => if a = 9 then amountBound - 1 else 100
    accExists := fun _ => true
    contrBal := fun _ => 100
    contrState := fun _ => 0
    contrModule := fun _ => 0 }

/-- Concrete account entry (bottom frame) used by the witnesses. -/
def wEbA : AccountChanges :=
  { original_balance := 100, balance_delta := .Positive 3 }

/-- Concrete account entry (top frame) used by the witnesses. -/
def wEtA : AccountChanges :=
  { original_balance := 100, balance_delta := .Negative 5 }

/-- Concrete contract entry (bottom frame) used by the witnesses. -/
def wEbC : ContractChanges :=
  { modification_index := 2, self_balance_delta := .Positive 1,
    self_balance_original := 100, state := some 10, module := none }

/-- Concrete contract entry (top frame) used by the witnesses. -/
def wEtC : ContractChanges :=
  { modification_index := 5, self_balance_delta := .Negative 4,
    self_balance_original := 100, state := some 11, module := some 7 }

/-- Concrete bottom frame used by the witnesses. -/
def wB : Changes :=
  { contracts := fun c => if c = 9 then some wEbC else none,
    accounts := fun a => if a = 4 then some wEbA else none }

/-- Concrete top frame used by the witnesses. -/
def wT : Changes :=
  { contracts := fun c => if c = 9 then some wEtC else none,
    accounts := fun a => if a = 4 then some wEtA else none }

/-- Concrete handler state used by the witnesses: one frame, energy 50. -/
def wSt : St :=
  { cs := ⟨[emptyChanges]⟩, energy := 50, trace := [], dirs := [] }

/-- Amount debited from account a when the given party sends amt. -/
def senderAccDebit (sender : Party) (a : Nat) (amt : Nat) : Int :=
  match sender with
  | .acc s => if a = s then (amt : Int) else 0
  | .contr _ => 0

/-- Amount debited from contract c when the given party sends amt. -/
def senderContrDebit (sender : Party) (c : Nat) (amt : Nat) : Int :=
  match sender with
  | .acc _ => 0
  | .contr c0 => if c = c0 then (amt : Int) else 0

instance : Inhabited InvokeEntrypointResponse := ⟨{ invoke_response := .success, logs := [] }⟩

/-- Discipline of the response field of emitted Resume directives, as
documented on Next::Resume in types.rs: the response is present exactly
for immediately handled interrupts and absent exactly when the
resumption is after a call to a contract that was run to completion. -/
def dirOk : InterruptKind × Next → Bool
  | (k, .Resume _ r) => r.isSome = decide (k ≠ .callCompleted)
  | (_, .Initial _ _) => true

/-- The property asserted by the spec for directives that resume after a
completed sub-call: their response value is present.  Used to evaluate
the spec sentence on a concrete run. -/
def resumesAfterSubcallHaveResponse (dirs : List (InterruptKind × Next)) : Bool :=
  dirs.all fun d =>
    match d with
    | (.callCompleted, .Resume _ r) => r.isSome
    | _ => true

/-- Extract the payload of a successful result (used by witnesses). -/
def okOrDefault {α : Type} [Inhabited α] : Except TestConfigurationError α → α
  | .ok a => a
  | .error _ => default

/-- Extract the payload of a successful optional result (used by
witnesses). -/
def someOkOrDefault {α : Type} [Inhabited α] : Except TestConfigurationError (Option α) → α
  | .ok (some a) => a
  | _ => default

/-- Witness sub-call start: contract 1 calls contract 2 with amount 5. -/
def wStart1 : St := someOkOrDefault (startCall wL (Party.contr 1) 2 5 wSt)

/-- Witness sub-call body run: the callee rejects after writing its
state and transferring 2 to account 3. -/
def wRes1 : ExecRes :=
  okOrDefault (exec wL 2 (EngineScript.writeState 42 (EngineScript.transfer 3 2
    (EngineScript.done .reject))) wStart1)

/-- Witness handler state with only 2 energy units left. -/
def wSt4 : St := { cs := ⟨[emptyChanges]⟩, energy := 2, trace := [], dirs := [] }

/-- Witness sub-call start from the low-energy state. -/
def wStart4 : St := someOkOrDefault (startCall wL (Party.contr 1) 2 0 { wSt4 with energy := 1 })

/-- Witness transfer run for the balance conservation claim. -/
def wRes6 : ExecRes :=
  okOrDefault (exec wL 1 (EngineScript.transfer 3 7 (EngineScript.done .success)) wSt)

/-- Witness change set after a resolved transfer of 7 from contract 1
to account 3. -/
def wCs6 : ChangeSet := someOkOrDefault (resolveTransfer wL wSt.cs 1 3 7)

/-- Witness change set after a resolved transfer on the two-frame
stack. -/
def wCs5 : ChangeSet :=
  someOkOrDefault (resolveTransfer wL ⟨[emptyChanges, wB]⟩ 1 3 7)

/-- Witness chain over the witness ledger. -/
def wCh : Chain := ⟨wL⟩

/-- Witness top-level run with a successfully completed sub-call. -/
def wPair7 : InvokeEntrypointResponse × St :=
  okOrDefault (invoke_entrypoint wL 0 1 0 50
    (EngineScript.callThen 2 0 (EngineScript.done .success) (EngineScript.done .success)))

/-- Witness top-level run that rejects after logging. -/
def wPair8 : InvokeEntrypointResponse × St :=
  okOrDefault (invoke_entrypoint wL 0 1 0 50 (EngineScript.log 6 (EngineScript.done .reject)))

/-- Witness read-only invocation result. -/
def wResp10 : InvokeEntrypointResponse :=
  okOrDefault (contract_invoke wCh 0 1 0 50 (EngineScript.done .success)).1

theorem AmountDelta.toInt_add (d1 d2 : AmountDelta) :
    (d1.add d2).toInt = d1.toInt + d2.toInt := by
  cases d1 <;> cases d2 <;>
    simp only [AmountDelta.add, AmountDelta.toInt] <;>
    (first
      | omega
      | (split_ifs <;> simp [AmountDelta.toInt] <;> omega))

theorem frameAccDelta_merge (b t : Changes) (a : Nat) :
    frameAccDelta (mergeFrames b t) a = frameAccDelta b a + frameAccDelta t a := by
  simp only [frameAccDelta, mergeFrames]
  cases hb : b.accounts a <;> cases ht : t.accounts a <;>
    simp [mergeAccountChanges, AmountDelta.toInt_add]

theorem frameContrDelta_merge (b t : Changes) (c : Nat) :
    frameContrDelta (mergeFrames b t) c = frameContrDelta b c + frameContrDelta t c := by
  simp only [frameContrDelta, mergeFrames]
  cases hb : b.contracts c <;> cases ht : t.contracts c <;>
    simp [mergeContractChanges, AmountDelta.toInt_add]

theorem effAcc_pop_commit (L : Ledger) (cs : ChangeSet) (a : Nat) :
    effAcc L cs.pop_commit a = effAcc L cs a := by
  obtain ⟨stack⟩ := cs
  match stack with
  | [] => rfl
  | [t] => rfl
  | t :: b :: rest =>
    simp only [effAcc, ChangeSet.pop_commit, stackAccDelta, frameAccDelta_merge]
    omega

theorem effContr_pop_commit (L : Ledger) (cs : ChangeSet) (c : Nat) :
    effContr L cs.pop_commit c = effContr L cs c := by
  obtain ⟨stack⟩ := cs
  match stack with
  | [] => rfl
  | [t] => rfl
  | t :: b :: rest =>
    simp only [effContr, ChangeSet.pop_commit, stackContrDelta, frameContrDelta_merge]
    omega

theorem lookupContractFrames_first (frames : List Changes) (c : Nat) :
    ∀ (i : Nat) (fr : Changes) (e : ContractChanges),
      frames[i]? = some fr → fr.contracts c = some e →
      (∀ j frj, j < i → frames[j]? = some frj → frj.contracts c = none) →
      lookupContractFrames frames c = some e := by
  induction frames with
  | nil => intro i fr e h; simp at h
  | cons fr0 rest ih =>
    intro i fr e hi he habove
    cases i with
    | zero =>
      simp at hi
      subst hi
      simp [lookupContractFrames, he]
    | succ i =>
      have h0 : fr0.contracts c = none := by
        exact habove 0 fr0 (Nat.succ_pos i) (by simp)
      simp only [lookupContractFrames, h0]
      exact ih i fr e (by simpa using hi) he
        (fun j frj hj hjget => habove (j + 1) frj (by omega) (by simpa using hjget))

theorem lookupAccountFrames_first (frames : List Changes) (a : Nat) :
    ∀ (i : Nat) (fr : Changes) (e : AccountChanges),
      frames[i]? = some fr → fr.accounts a = some e →
      (∀ j frj, j < i → frames[j]? = some frj → frj.accounts a = none) →
      lookupAccountFrames frames a = some e := by
  induction frames with
  | nil => intro i fr e h; simp at h
  | cons fr0 rest ih =>
    intro i fr e hi he habove
    cases i with
    | zero =>
      simp at hi
      subst hi
      simp [lookupAccountFrames, he]
    | succ i =>
      have h0 : fr0.accounts a = none := by
        exact habove 0 fr0 (Nat.succ_pos i) (by simp)
      simp only [lookupAccountFrames, h0]
      exact ih i fr e (by simpa using hi) he
        (fun j frj hj hjget => habove (j + 1) frj (by omega) (by simpa using hjget))

theorem lookupContractFrames_none (frames : List Changes) (c : Nat)
    (h : ∀ fr ∈ frames, fr.contracts c = none) :
    lookupContractFrames frames c = none := by
  induction frames with
  | nil => rfl
  | cons fr0 rest ih =>
    have h0 := h fr0 (List.mem_cons_self fr0 rest)
    simp only [lookupContractFrames, h0]
    exact ih (fun fr hfr => h fr (List.mem_cons_of_mem fr0 hfr))

theorem lookupAccountFrames_none (frames : List Changes) (a : Nat)
    (h : ∀ fr ∈ frames, fr.accounts a = none) :
    lookupAccountFrames frames a = none := by
  induction frames with
  | nil => rfl
  | cons fr0 rest ih =>
    have h0 := h fr0 (List.mem_cons_self fr0 rest)
    simp only [lookupAccountFrames, h0]
    exact ih (fun fr hfr => h fr (List.mem_cons_of_mem fr0 hfr))

theorem stackAccDelta_none (frames : List Changes) (a : Nat)
    (h : ∀ fr ∈ frames, fr.accounts a = none) :
    stackAccDelta frames a = 0 := by
  induction frames with
  | nil => rfl
  | cons fr0 rest ih =>
    have h0 := h fr0 (List.mem_cons_self fr0 rest)
    simp only [stackAccDelta, frameAccDelta, h0]
    rw [ih (fun fr hfr => h fr (List.mem_cons_of_mem fr0 hfr))]
    ring

theorem stackContrDelta_none (frames : List Changes) (c : Nat)
    (h : ∀ fr ∈ frames, fr.contracts c = none) :
    stackContrDelta frames c = 0 := by
  induction frames with
  | nil => rfl
  | cons fr0 rest ih =>
    have h0 := h fr0 (List.mem_cons_self fr0 rest)
    simp only [stackContrDelta, frameContrDelta, h0]
    rw [ih (fun fr hfr => h fr (List.mem_cons_of_mem fr0 hfr))]
    ring

theorem foldl_add_eq_sum (g : Changes → Int) (l : List Changes) :
    ∀ init : Int, l.foldl (fun acc fr => acc + g fr) init = init + (l.map g).sum := by
  induction l with
  | nil => intro init; simp
  | cons fr rest ih =>
    intro init
    simp only [List.foldl_cons, List.map_cons, List.sum_cons, ih]
    ring

theorem stackAccDelta_eq_sum (frames : List Changes) (a : Nat) :
    stackAccDelta frames a = (frames.map (fun fr => frameAccDelta fr a)).sum := by
  induction frames with
  | nil => rfl
  | cons fr rest ih => simp [stackAccDelta, ih]

theorem stackContrDelta_eq_sum (frames : List Changes) (c : Nat) :
    stackContrDelta frames c = (frames.map (fun fr => frameContrDelta fr c)).sum := by
  induction frames with
  | nil => rfl
  | cons fr rest ih => simp [stackContrDelta, ih]

/-- C2: for every change stack with at least two frames, pop_commit
removes the top frame and merges each of its account and contract
entries into the frame beneath: account balance deltas add, the
contract modification index becomes the max of the two frames, the
self-balance deltas add, a replaced state handle or module reference
present in the top frame overwrites the one beneath, and entries present
in only one frame are kept unchanged. -/
theorem claim_C2_pop_commit_merge (t b : Changes) (rest : List Changes) (a c : Nat) :
    (ChangeSet.pop_commit ⟨t :: b :: rest⟩ = ⟨mergeFrames b t :: rest⟩) ∧
    ((ChangeSet.pop_commit ⟨t :: b :: rest⟩).stack.length + 1 = (t :: b :: rest).length) ∧
    (∀ eb et, b.accounts a = some eb → t.accounts a = some et →
      (mergeFrames b t).accounts a = some (mergeAccountChanges eb et) ∧
      (mergeAccountChanges eb et).balance_delta.toInt =
        eb.balance_delta.toInt + et.balance_delta.toInt ∧
      (mergeAccountChanges eb et).original_balance = eb.original_balance) ∧
    (b.accounts a = none → (mergeFrames b t).accounts a = t.accounts a) ∧
    (t.accounts a = none → (mergeFrames b t).accounts a = b.accounts a) ∧
    (∀ eb et, b.contracts c = some eb → t.contracts c = some et →
      (mergeFrames b t).contracts c = some (mergeContractChanges eb et) ∧
      (mergeContractChanges eb et).modification_index =
        max eb.modification_index et.modification_index ∧
      (mergeContractChanges eb et).self_balance_delta.toInt =
        eb.self_balance_delta.toInt + et.self_balance_delta.toInt ∧
      (∀ s, et.state = some s → (mergeContractChanges eb et).state = some s) ∧
      (et.state = none → (mergeContractChanges eb et).state = eb.state) ∧
      (∀ m, et.module = some m → (mergeContractChanges eb et).module = some m) ∧
      (et.module = none → (mergeContractChanges eb et).module = eb.module)) ∧
    (b.contracts c = none → (mergeFrames b t).contracts c = t.contracts c) ∧
    (t.contracts c = none → (mergeFrames b t).contracts c = b.contracts c) := by
  refine ⟨rfl, rfl, ?_, ?_, ?_, ?_, ?_, ?_⟩
  · intro eb et hb ht
    refine ⟨?_, AmountDelta.toInt_add eb.balance_delta et.balance_delta, rfl⟩
    simp [mergeFrames, hb, ht]
  · intro hb
    cases ht : t.accounts a <;> simp [mergeFrames, hb, ht]
  · intro ht
    cases hb : b.accounts a <;> simp [mergeFrames, hb, ht]
  · intro eb et hb ht
    refine ⟨?_, rfl, AmountDelta.toInt_add eb.self_balance_delta et.self_balance_delta,
      ?_, ?_, ?_, ?_⟩
    · simp [mergeFrames, hb, ht]
    · intro s hs; simp [mergeContractChanges, hs]
    · intro hs; simp [mergeContractChanges, hs]
    · intro m hm; simp [mergeContractChanges, hm]
    · intro hm; simp [mergeContractChanges, hm]
  · intro hb
    cases ht : t.contracts c <;> simp [mergeFrames, hb, ht]
  · intro ht
    cases hb : b.contracts c <;> simp [mergeFrames, hb, ht]

/-- Concrete instantiation of the pop_commit merge semantics: two frames
both touching account 4 and contract 9; the merged entry adds the
deltas, takes the max index and the top state handle. -/
theorem claim_C2_pop_commit_merge_witness :
    (wB.accounts 4 = some wEbA ∧ wT.accounts 4 = some wEtA ∧
     wB.contracts 9 = some wEbC ∧ wT.contracts 9 = some wEtC) ∧
    ((mergeFrames wB wT).accounts 4 = some (mergeAccountChanges wEbA wEtA) ∧
     (mergeAccountChanges wEbA wEtA).balance_delta.toInt =
       wEbA.balance_delta.toInt + wEtA.balance_delta.toInt ∧
     (mergeFrames wB wT).contracts 9 = some (mergeContractChanges wEbC wEtC) ∧
     (mergeContractChanges wEbC wEtC).modification_index =
       max wEbC.modification_index wEtC.modification_index) := by
  have h := claim_C2_pop_commit_merge wT wB [] 4 9
  have ha := h.2.2.1 wEbA wEtA rfl rfl
  have hc := h.2.2.2.2.2.1 wEbC wEtC rfl rfl
  exact ⟨⟨rfl, rfl, rfl, rfl⟩, ha.1, ha.2.1, hc.1, hc.2.1⟩

/-- C3: the current view of an account or contract returned by the
layered lookup is the entry of the topmost frame containing an entry for
the address; it falls back to the persisted ledger value when no frame
contains an entry; and the effective balance of any entity equals its
persisted balance plus the sum of that entity's deltas accumulated over
all active frames from bottom to top. -/
theorem claim_C3_layered_lookup (L : Ledger) (cs : ChangeSet) (a c : Nat) :
    (∀ (i : Nat) (fr : Changes) (e : ContractChanges),
      cs.stack[i]? = some fr → fr.contracts c = some e →
      (∀ (j : Nat) (frj : Changes), j < i → cs.stack[j]? = some frj → frj.contracts c = none) →
      cs.lookupContract c = some e) ∧
    (∀ (i : Nat) (fr : Changes) (e : AccountChanges),
      cs.stack[i]? = some fr → fr.accounts a = some e →
      (∀ (j : Nat) (frj : Changes), j < i → cs.stack[j]? = some frj → frj.accounts a = none) →
      cs.lookupAccount a = some e) ∧
    ((∀ fr ∈ cs.stack, fr.contracts c = none) →
      cs.lookupContract c = none ∧
      viewState L cs c = L.contrState c ∧
      viewModule L cs c = L.contrModule c ∧
      effContr L cs c = L.contrBal c) ∧
    ((∀ fr ∈ cs.stack, fr.accounts a = none) →
      cs.lookupAccount a = none ∧ effAcc L cs a = L.accBal a) ∧
    (effAcc L cs a =
      cs.stack.reverse.foldl (fun acc fr => acc + frameAccDelta fr a) (L.accBal a)) ∧
    (effContr L cs c =
      cs.stack.reverse.foldl (fun acc fr => acc + frameContrDelta fr c) (L.contrBal c)) := by
  refine ⟨?_, ?_, ?_, ?_, ?_, ?_⟩
  · exact fun i fr e h1 h2 h3 => lookupContractFrames_first cs.stack c i fr e h1 h2 h3
  · exact fun i fr e h1 h2 h3 => lookupAccountFrames_first cs.stack a i fr e h1 h2 h3
  · intro h
    have hl : cs.lookupContract c = none := lookupContractFrames_none cs.stack c h
    refine ⟨hl, ?_, ?_, ?_⟩
    · simp [viewState, hl]
    · simp [viewModule, hl]
    · simp [effContr, stackContrDelta_none cs.stack c h]
  · intro h
    refine ⟨lookupAccountFrames_none cs.stack a h, ?_⟩
    simp [effAcc, stackAccDelta_none cs.stack a h]
  · rw [foldl_add_eq_sum, effAcc, stackAccDelta_eq_sum]
    simp [List.sum_reverse]
  · rw [foldl_add_eq_sum, effContr, stackContrDelta_eq_sum]
    simp [List.sum_reverse]

/-- Concrete instantiation of the layered lookup: a two-frame stack in
which only the bottom frame has entries; lookup returns the bottom
entries, and with a frame-free stack the view falls back to the
persisted values. -/
theorem claim_C3_layered_lookup_witness :
    ((⟨[emptyChanges, wB]⟩ : ChangeSet).lookupContract 9 = some wEbC ∧
     (⟨[emptyChanges, wB]⟩ : ChangeSet).lookupAccount 4 = some wEbA) ∧
    ((⟨[emptyChanges]⟩ : ChangeSet).lookupContract 9 = none ∧
     viewState wL ⟨[emptyChanges]⟩ 9 = wL.contrState 9 ∧
     effContr wL ⟨[emptyChanges]⟩ 9 = wL.contrBal 9) := by
  have h1 := (claim_C3_layered_lookup wL ⟨[emptyChanges, wB]⟩ 4 9).1
    1 wB wEbC (by simp) rfl
    (fun j frj hj hget => by
      interval_cases j
      · simp at hget
        subst hget
        rfl)
  have h2 := ((claim_C3_layered_lookup wL ⟨[emptyChanges, wB]⟩ 4 9).2.1)
    1 wB wEbA (by simp) rfl
    (fun j frj hj hget => by
      interval_cases j
      · simp at hget
        subst hget
        rfl)
  have h3 := ((claim_C3_layered_lookup wL ⟨[emptyChanges]⟩ 4 9).2.2.1)
    (by intro fr hfr; simp at hfr; subst hfr; rfl)
  exact ⟨⟨h1, h2⟩, h3.1, h3.2.1, h3.2.2.2⟩

/-- C9: pop_discard removes only the top frame and never merges;
discarding twice in succession, or discarding an already-empty frame,
leaves every remaining ancestor frame, and hence all of its account and
contract delta values, exactly unchanged. -/
theorem claim_C9_pop_discard (cs : ChangeSet) (a c : Nat) :
    (cs.pop_discard.stack = cs.stack.tail) ∧
    (cs.pop_discard.pop_discard.stack = cs.stack.drop 2) ∧
    (∀ rest : List Changes, (ChangeSet.pop_discard ⟨emptyChanges :: rest⟩).stack = rest) ∧
    (∀ i, cs.pop_discard.pop_discard.stack[i]? = cs.stack[i + 2]?) ∧
    (stackAccDelta cs.pop_discard.pop_discard.stack a = stackAccDelta (cs.stack.drop 2) a) ∧
    (stackContrDelta cs.pop_discard.pop_discard.stack c =
      stackContrDelta (cs.stack.drop 2) c) := by
  obtain ⟨stack⟩ := cs
  have hdrop : (ChangeSet.pop_discard (ChangeSet.pop_discard ⟨stack⟩)).stack = stack.drop 2 := by
    match stack with
    | [] => rfl
    | [x] => rfl
    | x :: y :: r => rfl
  refine ⟨rfl, hdrop, fun rest => rfl, ?_, by rw [hdrop], by rw [hdrop]⟩
  intro i
  rw [hdrop]
  simp [Nat.add_comm, List.getElem?_drop stack 2 i]

theorem modifyTop_stack (cs : ChangeSet) (g : Changes → Changes) (f : Changes)
    (rest : List Changes) (h : cs.stack = f :: rest) :
    (cs.modifyTop g).stack = g f :: rest := by
  obtain ⟨stack⟩ := cs
  simp only at h
  subst h
  rfl

theorem accEntryOrFresh_delta (L : Ledger) (f : Changes) (a : Nat) :
    (accEntryOrFresh L f a).balance_delta.toInt = frameAccDelta f a := by
  simp only [accEntryOrFresh, frameAccDelta, freshAccountEntry]
  cases f.accounts a <;> simp [AmountDelta.toInt]

theorem contrEntryOrFresh_delta (L : Ledger) (cs : ChangeSet) (f : Changes) (c : Nat) :
    (contrEntryOrFresh L cs f c).self_balance_delta.toInt = frameContrDelta f c := by
  simp only [contrEntryOrFresh, frameContrDelta, freshContractEntry]
  cases f.contracts c
  · cases cs.lookupContract c <;> simp [AmountDelta.toInt]
  · simp

theorem contrEntryOrFresh_idx (L : Ledger) (cs : ChangeSet) (f : Changes)
    (rest : List Changes) (c : Nat) (h : cs.stack = f :: rest) :
    (contrEntryOrFresh L cs f c).modification_index = observedIdx cs c := by
  obtain ⟨stack⟩ := cs
  simp only at h
  subst h
  simp only [contrEntryOrFresh, observedIdx, ChangeSet.lookupContract, lookupContractFrames]
  cases hf : f.contracts c
  · simp only [freshContractEntry, ChangeSet.lookupContract, lookupContractFrames, hf]
    cases lookupContractFrames rest c <;> simp
  · simp [hf]

theorem effAcc_touchContract (L L2 : Ledger) (cs : ChangeSet) (c : Nat)
    (g : ContractChanges → ContractChanges) (a : Nat) :
    effAcc L2 (touchContract L cs c g) a = effAcc L2 cs a := by
  obtain ⟨stack⟩ := cs
  cases stack with
  | nil => rfl
  | cons f rest =>
    simp [touchContract, ChangeSet.modifyTop, effAcc, stackAccDelta, frameAccDelta]

theorem effContr_touchAccount (L L2 : Ledger) (cs : ChangeSet) (a : Nat)
    (g : AccountChanges → AccountChanges) (c : Nat) :
    effContr L2 (touchAccount L cs a g) c = effContr L2 cs c := by
  obtain ⟨stack⟩ := cs
  cases stack with
  | nil => rfl
  | cons f rest =>
    simp [touchAccount, ChangeSet.modifyTop, effContr, stackContrDelta, frameContrDelta]

theorem effAcc_applyAccDelta_self (L : Ledger) (cs : ChangeSet) (a : Nat)
    (d : AmountDelta) (f : Changes) (rest : List Changes) (h : cs.stack = f :: rest) :
    effAcc L (applyPartyDelta L cs (.acc a) d) a = effAcc L cs a + d.toInt := by
  obtain ⟨stack⟩ := cs
  simp only at h
  subst h
  simp only [applyPartyDelta, touchAccount, ChangeSet.modifyTop, effAcc, stackAccDelta]
  have hfr : frameAccDelta
      { f with accounts := fun x =>
          if x = a then some { accEntryOrFresh L f a with
            balance_delta := (accEntryOrFresh L f a).balance_delta.add d } else f.accounts x } a =
      frameAccDelta f a + d.toInt := by
    simp [frameAccDelta, AmountDelta.toInt_add, accEntryOrFresh_delta]
  rw [hfr]
  ring

theorem effAcc_applyAccDelta_other (L : Ledger) (cs : ChangeSet) (a : Nat)
    (d : AmountDelta) (b : Nat) (hne : b ≠ a) :
    effAcc L (applyPartyDelta L cs (.acc a) d) b = effAcc L cs b := by
  obtain ⟨stack⟩ := cs
  cases stack with
  | nil => rfl
  | cons f rest =>
    simp only [applyPartyDelta, touchAccount, ChangeSet.modifyTop, effAcc, stackAccDelta]
    have hfr : frameAccDelta
        { f with accounts := fun x =>
            if x = a then some { accEntryOrFresh L f a with
              balance_delta := (accEntryOrFresh L f a).balance_delta.add d } else f.accounts x } b =
        frameAccDelta f b := by
      simp [frameAccDelta, hne]
    rw [hfr]

theorem effContr_applyAccDelta (L : Ledger) (cs : ChangeSet) (a : Nat)
    (d : AmountDelta) (c : Nat) :
    effContr L (applyPartyDelta L cs (.acc a) d) c = effContr L cs c := by
  simp only [applyPartyDelta]
  exact effContr_touchAccount L L cs a _ c

theorem effContr_applyContrDelta_self (L : Ledger) (cs : ChangeSet) (c : Nat)
    (d : AmountDelta) (f : Changes) (rest : List Changes) (h : cs.stack = f :: rest) :
    effContr L (applyPartyDelta L cs (.contr c) d) c = effContr L cs c + d.toInt := by
  obtain ⟨stack⟩ := cs
  simp only at h
  subst h
  simp only [applyPartyDelta, touchContract, ChangeSet.modifyTop, effContr, stackContrDelta]
  have hfr : frameContrDelta
      { f with contracts := fun x =>
          if x = c then some { contrEntryOrFresh L ⟨f :: rest⟩ f c with
            self_balance_delta := (contrEntryOrFresh L ⟨f :: rest⟩ f c).self_balance_delta.add d }
          else f.contracts x } c =
      frameContrDelta f c + d.toInt := by
    simp [frameContrDelta, AmountDelta.toInt_add, contrEntryOrFresh_delta]
  rw [hfr]
  ring

theorem effContr_applyContrDelta_other (L : Ledger) (cs : ChangeSet) (c : Nat)
    (d : AmountDelta) (b : Nat) (hne : b ≠ c) :
    effContr L (applyPartyDelta L cs (.contr c) d) b = effContr L cs b := by
  obtain ⟨stack⟩ := cs
  cases stack with
  | nil => rfl
  | cons f rest =>
    simp only [applyPartyDelta, touchContract, ChangeSet.modifyTop, effContr, stackContrDelta]
    have hfr : frameContrDelta
        { f with contracts := fun x =>
            if x = c then some { contrEntryOrFresh L ⟨f :: rest⟩ f c with
              self_balance_delta := (contrEntryOrFresh L ⟨f :: rest⟩ f c).self_balance_delta.add d }
            else f.contracts x } b =
        frameContrDelta f b := by
      simp [frameContrDelta, hne]
    rw [hfr]

theorem effAcc_applyContrDelta (L : Ledger) (cs : ChangeSet) (c : Nat)
    (d : AmountDelta) (a : Nat) :
    effAcc L (applyPartyDelta L cs (.contr c) d) a = effAcc L cs a := by
  simp only [applyPartyDelta]
  exact effAcc_touchContract L L cs c _ a

theorem effAcc_push_frame (L : Ledger) (cs : ChangeSet) (a : Nat) :
    effAcc L cs.push_frame a = effAcc L cs a := by
  simp [ChangeSet.push_frame, effAcc, stackAccDelta, frameAccDelta, emptyChanges]

theorem effContr_push_frame (L : Ledger) (cs : ChangeSet) (c : Nat) :
    effContr L cs.push_frame c = effContr L cs c := by
  simp [ChangeSet.push_frame, effContr, stackContrDelta, frameContrDelta, emptyChanges]

theorem lookupContract_touchAccount (L : Ledger) (cs : ChangeSet) (a : Nat)
    (g : AccountChanges → AccountChanges) (c : Nat) :
    (touchAccount L cs a g).lookupContract c = cs.lookupContract c := by
  obtain ⟨stack⟩ := cs
  cases stack with
  | nil => rfl
  | cons f rest =>
    simp [touchAccount, ChangeSet.modifyTop, ChangeSet.lookupContract, lookupContractFrames]

theorem observedIdx_touchAccount (L : Ledger) (cs : ChangeSet) (a : Nat)
    (g : AccountChanges → AccountChanges) (c : Nat) :
    observedIdx (touchAccount L cs a g) c = observedIdx cs c := by
  simp [observedIdx, lookupContract_touchAccount]

theorem observedIdx_touchContract_other (L : Ledger) (cs : ChangeSet) (c : Nat)
    (g : ContractChanges → ContractChanges) (b : Nat) (hne : b ≠ c) :
    observedIdx (touchContract L cs c g) b = observedIdx cs b := by
  obtain ⟨stack⟩ := cs
  cases stack with
  | nil => rfl
  | cons f rest =>
    simp [touchContract, ChangeSet.modifyTop, observedIdx, ChangeSet.lookupContract,
      lookupContractFrames, hne]

theorem observedIdx_touchContract_self (L : Ledger) (cs : ChangeSet) (c : Nat)
    (g : ContractChanges → ContractChanges) (f : Changes) (rest : List Changes)
    (h : cs.stack = f :: rest) :
    observedIdx (touchContract L cs c g) c =
      (g (contrEntryOrFresh L cs f c)).modification_index := by
  obtain ⟨stack⟩ := cs
  simp only at h
  subst h
  simp [touchContract, ChangeSet.modifyTop, observedIdx, ChangeSet.lookupContract,
    lookupContractFrames]

theorem observedIdx_applyPartyDelta (L : Ledger) (cs : ChangeSet) (p : Party)
    (d : AmountDelta) (x : Nat) :
    observedIdx (applyPartyDelta L cs p d) x = observedIdx cs x := by
  cases p with
  | acc a => exact observedIdx_touchAccount L cs a _ x
  | contr c =>
    by_cases hx : x = c
    · subst hx
      obtain ⟨stack⟩ := cs
      cases hstack : stack with
      | nil => simp [applyPartyDelta, touchContract, ChangeSet.modifyTop]
      | cons f rest =>
        have := observedIdx_touchContract_self L ⟨f :: rest⟩ x
          (fun e => { e with self_balance_delta := e.self_balance_delta.add d }) f rest rfl
        simp only [applyPartyDelta]
        rw [this, contrEntryOrFresh_idx L ⟨f :: rest⟩ f rest x rfl]
    · exact observedIdx_touchContract_other L cs c _ x hx

theorem resolveTransfer_ok_some (L : Ledger) (cs : ChangeSet) (fromC toA : Nat)
    (amt : Nat) (cs' : ChangeSet)
    (h : resolveTransfer L cs fromC toA amt = .ok (some cs')) :
    L.accExists toA = true ∧
    ¬ (effContr L cs fromC < (amt : Int)) ∧
    ¬ ((amountBound : Int) ≤ effAcc L cs toA + (amt : Int)) ∧
    cs' = applyPartyDelta L (applyPartyDelta L cs (.contr fromC) (.Negative amt))
            (.acc toA) (.Positive amt) := by
  unfold resolveTransfer at h
  split_ifs at h with h1 h2 h3 <;> simp at h
  exact ⟨by simpa using h1, h2, h3, h.symm⟩

theorem startCall_ok_some (L : Ledger) (sender : Party) (callee : Nat) (amt : Nat)
    (st st2 : St) (h : startCall L sender callee amt st = .ok (some st2)) :
    ¬ (effParty L st.cs sender < (amt : Int)) ∧
    ¬ ((amountBound : Int) ≤ effContr L st.cs callee + (amt : Int)) ∧
    st2 = { st with
            cs := applyPartyDelta L
                    (applyPartyDelta L st.cs.push_frame sender (.Negative amt))
                    (.contr callee) (.Positive amt)
            dirs := st.dirs ++ [(.callCompleted, .Initial sender st.trace.length)] } := by
  unfold startCall at h
  split_ifs at h with h1 h2 <;> simp at h
  exact ⟨h1, h2, by rw [← h]⟩

theorem applyPartyDelta_stack_cons (L : Ledger) (cs : ChangeSet) (p : Party)
    (d : AmountDelta) (f : Changes) (rest : List Changes) (h : cs.stack = f :: rest) :
    ∃ f2, (applyPartyDelta L cs p d).stack = f2 :: rest := by
  cases p with
  | acc a => exact ⟨_, modifyTop_stack cs _ f rest h⟩
  | contr c => exact ⟨_, modifyTop_stack cs _ f rest h⟩

theorem startCall_stack (L : Ledger) (sender : Party) (callee : Nat) (amt : Nat)
    (st st2 : St) (h : startCall L sender callee amt st = .ok (some st2)) :
    ∃ f2, st2.cs.stack = f2 :: st.cs.stack := by
  obtain ⟨-, -, hst2⟩ := startCall_ok_some L sender callee amt st st2 h
  subst hst2
  have h1 : (st.cs.push_frame).stack = emptyChanges :: st.cs.stack := rfl
  obtain ⟨fa, ha⟩ := applyPartyDelta_stack_cons L st.cs.push_frame sender (.Negative amt)
    emptyChanges st.cs.stack h1
  obtain ⟨fb, hb⟩ := applyPartyDelta_stack_cons L _ (.contr callee) (.Positive amt) fa
    st.cs.stack ha
  exact ⟨fb, hb⟩

theorem effAcc_startCall (L : Ledger) (sender : Party) (callee : Nat) (amt : Nat)
    (st st2 : St) (h : startCall L sender callee amt st = .ok (some st2)) (a : Nat) :
    effAcc L st2.cs a = effAcc L st.cs a - senderAccDebit sender a amt := by
  obtain ⟨-, -, hst2⟩ := startCall_ok_some L sender callee amt st st2 h
  subst hst2
  simp only
  rw [effAcc_applyContrDelta]
  cases sender with
  | acc s =>
    by_cases ha : a = s
    · subst ha
      rw [effAcc_applyAccDelta_self L st.cs.push_frame a (.Negative amt) emptyChanges
        st.cs.stack rfl, effAcc_push_frame]
      simp [AmountDelta.toInt, senderAccDebit]
      ring
    · rw [effAcc_applyAccDelta_other L st.cs.push_frame s (.Negative amt) a ha,
        effAcc_push_frame]
      simp [ha, senderAccDebit]
  | contr c0 =>
    rw [effAcc_applyContrDelta, effAcc_push_frame]
    simp [senderAccDebit]

theorem effContr_startCall (L : Ledger) (sender : Party) (callee : Nat) (amt : Nat)
    (st st2 : St) (h : startCall L sender callee amt st = .ok (some st2)) (c : Nat) :
    effContr L st2.cs c =
      effContr L st.cs c + (if c = callee then (amt : Int) else 0)
        - senderContrDebit sender c amt := by
  obtain ⟨-, -, hst2⟩ := startCall_ok_some L sender callee amt st st2 h
  subst hst2
  simp only
  have hmid : ∃ fm, (applyPartyDelta L st.cs.push_frame sender (.Negative amt)).stack =
      fm :: st.cs.stack :=
    applyPartyDelta_stack_cons L st.cs.push_frame sender (.Negative amt) emptyChanges
      st.cs.stack rfl
  obtain ⟨fm, hm⟩ := hmid
  have hstep2 : effContr L (applyPartyDelta L
      (applyPartyDelta L st.cs.push_frame sender (.Negative amt)) (.contr callee)
      (.Positive amt)) c =
      effContr L (applyPartyDelta L st.cs.push_frame sender (.Negative amt)) c +
        (if c = callee then (amt : Int) else 0) := by
    by_cases hc : c = callee
    · subst hc
      rw [effContr_applyContrDelta_self L _ c (.Positive amt) fm st.cs.stack hm]
      simp [AmountDelta.toInt]
    · rw [effContr_applyContrDelta_other L _ callee (.Positive amt) c hc]
      simp [hc]
  rw [hstep2]
  cases sender with
  | acc s =>
    rw [effContr_applyAccDelta, effContr_push_frame]
    simp [senderContrDebit]
  | contr c0 =>
    by_cases hc : c = c0
    · subst hc
      rw [effContr_applyContrDelta_self L st.cs.push_frame c (.Negative amt) emptyChanges
        st.cs.stack rfl, effContr_push_frame]
      simp [AmountDelta.toInt, senderContrDebit]
      ring
    · rw [effContr_applyContrDelta_other L st.cs.push_frame c0 (.Negative amt) c hc,
        effContr_push_frame]
      simp [hc, senderContrDebit]

theorem effContr_touchContract_keep (L : Ledger) (cs : ChangeSet) (c : Nat)
    (g : ContractChanges → ContractChanges)
    (hg : ∀ e, (g e).self_balance_delta = e.self_balance_delta) (x : Nat) :
    effContr L (touchContract L cs c g) x = effContr L cs x := by
  obtain ⟨stack⟩ := cs
  cases stack with
  | nil => rfl
  | cons f rest =>
    simp only [touchContract, ChangeSet.modifyTop, effContr, stackContrDelta]
    have hfr : frameContrDelta
        { f with contracts := fun y =>
            if y = c then some (g (contrEntryOrFresh L ⟨f :: rest⟩ f c)) else f.contracts y } x =
        frameContrDelta f x := by
      by_cases hx : x = c
      · subst hx
        simp only [frameContrDelta, if_pos]
        rw [hg]
        have hd := contrEntryOrFresh_delta L ⟨f :: rest⟩ f x
        simpa [frameContrDelta] using hd
      · simp [frameContrDelta, hx]
    rw [hfr]

theorem resolveTransfer_effects (L : Ledger) (cs : ChangeSet) (fromC toA : Nat)
    (amt : Nat) (cs' : ChangeSet) (f : Changes) (rest : List Changes)
    (hstack : cs.stack = f :: rest)
    (h : resolveTransfer L cs fromC toA amt = .ok (some cs')) :
    (∃ f2, cs'.stack = f2 :: rest) ∧
    effAcc L cs' toA = effAcc L cs toA + (amt : Int) ∧
    (∀ b, b ≠ toA → effAcc L cs' b = effAcc L cs b) ∧
    effContr L cs' fromC = effContr L cs fromC - (amt : Int) ∧
    (∀ x, x ≠ fromC → effContr L cs' x = effContr L cs x) ∧
    (∀ x, observedIdx cs' x = observedIdx cs x) := by
  obtain ⟨-, -, -, hcs'⟩ := resolveTransfer_ok_some L cs fromC toA amt cs' h
  subst hcs'
  obtain ⟨f1, h1⟩ := applyPartyDelta_stack_cons L cs (.contr fromC) (.Negative amt) f rest hstack
  refine ⟨applyPartyDelta_stack_cons L _ (.acc toA) (.Positive amt) f1 rest h1, ?_, ?_, ?_, ?_, ?_⟩
  · rw [effAcc_applyAccDelta_self L _ toA (.Positive amt) f1 rest h1, effAcc_applyContrDelta]
    simp [AmountDelta.toInt]
  · intro b hb
    rw [effAcc_applyAccDelta_other L _ toA (.Positive amt) b hb, effAcc_applyContrDelta]
  · rw [effContr_applyAccDelta,
      effContr_applyContrDelta_self L cs fromC (.Negative amt) f rest hstack]
    simp [AmountDelta.toInt]
    ring
  · intro x hx
    rw [effContr_applyAccDelta, effContr_applyContrDelta_other L cs fromC (.Negative amt) x hx]
  · intro x
    rw [observedIdx_applyPartyDelta, observedIdx_applyPartyDelta]

theorem startCall_nonneg (L : Ledger) (sender : Party) (callee : Nat) (amt : Nat)
    (st st2 : St) (h : startCall L sender callee amt st = .ok (some st2))
    (hnn : NonNeg L st.cs) : NonNeg L st2.cs := by
  obtain ⟨h1, -, -⟩ := startCall_ok_some L sender callee amt st st2 h
  obtain ⟨hA, hC⟩ := hnn
  constructor
  · intro a
    rw [effAcc_startCall L sender callee amt st st2 h a]
    cases sender with
    | acc s =>
      by_cases ha : a = s
      · subst ha
        have h1' : (amt : Int) ≤ effAcc L st.cs a := by
          simpa [effParty] using h1
        simp only [senderAccDebit, if_pos rfl]
        omega
      · have := hA a
        simp only [senderAccDebit, if_neg ha]
        omega
    | contr c0 =>
      have := hA a
      simp only [senderAccDebit]
      omega
  · intro c
    rw [effContr_startCall L sender callee amt st st2 h c]
    cases sender with
    | acc s =>
      have := hC c
      simp only [senderContrDebit]
      split_ifs <;> omega
    | contr c0 =>
      have h1' : (amt : Int) ≤ effContr L st.cs c0 := by
        simpa [effParty] using h1
      have hc := hC c
      simp only [senderContrDebit]
      by_cases hcc : c = callee
      · rw [if_pos hcc]
        by_cases hc0c : c = c0
        · rw [if_pos hc0c]
          omega
        · rw [if_neg hc0c]
          omega
      · rw [if_neg hcc]
        by_cases hc0c : c = c0
        · rw [if_pos hc0c]
          subst hc0c
          omega
        · rw [if_neg hc0c]
          omega

theorem nonNeg_pop_commit (L : Ledger) (cs : ChangeSet) (hnn : NonNeg L cs) :
    NonNeg L cs.pop_commit := by
  obtain ⟨hA, hC⟩ := hnn
  exact ⟨fun a => by rw [effAcc_pop_commit]; exact hA a,
         fun c => by rw [effContr_pop_commit]; exact hC c⟩

theorem nonNeg_writeStateOp (L : Ledger) (cs : ChangeSet) (c h : Nat)
    (hnn : NonNeg L cs) : NonNeg L (cs.writeStateOp L c h) := by
  obtain ⟨hA, hC⟩ := hnn
  constructor
  · intro a
    unfold ChangeSet.writeStateOp
    rw [effAcc_touchContract]
    exact hA a
  · intro x
    unfold ChangeSet.writeStateOp
    rw [effContr_touchContract_keep L cs c
      (fun e => { e with state := some h, modification_index := e.modification_index + 1 })
      (fun e => rfl) x]
    exact hC x

theorem nonNeg_writeModuleOp (L : Ledger) (cs : ChangeSet) (c m : Nat)
    (hnn : NonNeg L cs) : NonNeg L (cs.writeModuleOp L c m) := by
  obtain ⟨hA, hC⟩ := hnn
  constructor
  · intro a
    unfold ChangeSet.writeModuleOp
    rw [effAcc_touchContract]
    exact hA a
  · intro x
    unfold ChangeSet.writeModuleOp
    rw [effContr_touchContract_keep L cs c
      (fun e => { e with module := some m, modification_index := e.modification_index + 1 })
      (fun e => rfl) x]
    exact hC x

theorem exec_shape_nonneg (L : Ledger) (t : EngineScript) :
    ∀ (addr : Nat) (st : St) (res : ExecRes) (f : Changes) (rest : List Changes),
      exec L addr t st = .ok res → st.cs.stack = f :: rest →
      (∃ f2, res.st.cs.stack = f2 :: rest) ∧
      (NonNeg L st.cs → NonNeg L res.st.cs) := by
  induction t with
  | done fin =>
    intro addr st res f rest hex hstack
    simp only [exec, Except.ok.injEq] at hex
    subst hex
    exact ⟨⟨f, hstack⟩, fun hnn => hnn⟩
  | log n r ih =>
    intro addr st res f rest hex hstack
    simp only [exec] at hex
    cases htick : tickEnergy st.energy with
    | error e => simp [htick] at hex
    | ok e1 =>
      simp only [htick] at hex
      cases hrec : exec L addr r { st with energy := e1 } with
      | error e => simp [hrec] at hex
      | ok r2 =>
        simp only [hrec, Except.ok.injEq] at hex
        subst hex
        exact ih addr { st with energy := e1 } r2 f rest hrec hstack
  | writeState hv r ih =>
    intro addr st res f rest hex hstack
    simp only [exec] at hex
    cases htick : tickEnergy st.energy with
    | error e => simp [htick] at hex
    | ok e1 =>
      simp only [htick] at hex
      have hstack' : (st.cs.writeStateOp L addr hv).stack = _ :: rest :=
        modifyTop_stack st.cs _ f rest hstack
      have hres := ih addr _ res _ rest hex hstack'
      exact ⟨hres.1, fun hnn => hres.2 (nonNeg_writeStateOp L st.cs addr hv hnn)⟩
  | writeModule mv r ih =>
    intro addr st res f rest hex hstack
    simp only [exec] at hex
    cases htick : tickEnergy st.energy with
    | error e => simp [htick] at hex
    | ok e1 =>
      simp only [htick] at hex
      have hstack' : (st.cs.writeModuleOp L addr mv).stack = _ :: rest :=
        modifyTop_stack st.cs _ f rest hstack
      have hres := ih addr _ res _ rest hex hstack'
      exact ⟨hres.1, fun hnn => hres.2 (nonNeg_writeModuleOp L st.cs addr mv hnn)⟩
  | transfer toA amt r ih =>
    intro addr st res f rest hex hstack
    simp only [exec] at hex
    cases htick : tickEnergy st.energy with
    | error e => simp [htick] at hex
    | ok e1 =>
      simp only [htick] at hex
      cases hres : resolveTransfer L st.cs addr toA amt with
      | error e => simp [hres] at hex
      | ok o =>
        cases o with
        | none =>
          simp only [hres] at hex
          exact ih addr
            { st with
              energy := e1
              dirs := st.dirs ++ [(.transfer, .Resume addr (some false))] }
            res f rest hex hstack
        | some cs' =>
          simp only [hres] at hex
          obtain ⟨⟨f2, hf2⟩, hacc, haccOther, hcontr, hcontrOther, -⟩ :=
            resolveTransfer_effects L st.cs addr toA amt cs' f rest hstack hres
          have hchecks := resolveTransfer_ok_some L st.cs addr toA amt cs' hres
          have hres2 := ih addr _ res f2 rest hex hf2
          refine ⟨hres2.1, fun hnn => hres2.2 ?_⟩
          obtain ⟨hA, hC⟩ := hnn
          constructor
          · intro b
            by_cases hb : b = toA
            · subst hb
              rw [hacc]
              have := hA b
              omega
            · rw [haccOther b hb]
              exact hA b
          · intro x
            by_cases hx : x = addr
            · subst hx
              rw [hcontr]
              have h2 := hchecks.2.1
              omega
            · rw [hcontrOther x hx]
              exact hC x
  | query q r ih =>
    intro addr st res f rest hex hstack
    simp only [exec] at hex
    cases htick : tickEnergy st.energy with
    | error e => simp [htick] at hex
    | ok e1 =>
      simp only [htick] at hex
      exact ih addr
        { st with
          energy := e1
          dirs := st.dirs ++ [(.query, .Resume addr (some (L.accExists q)))] }
        res f rest hex hstack
  | callThen callee amt body r ihBody ihRest =>
    intro addr st res f rest hex hstack
    simp only [exec] at hex
    cases htick : tickEnergy st.energy with
    | error e => simp [htick] at hex
    | ok e1 =>
      simp only [htick] at hex
      cases hstart : startCall L (.contr addr) callee amt { st with energy := e1 } with
      | error e => simp [hstart] at hex
      | ok o =>
        cases o with
        | none =>
          simp only [hstart] at hex
          exact ihRest addr
            { st with
              energy := e1
              dirs := st.dirs ++ [(.callImmediate, .Resume addr (some false))] }
            res f rest hex hstack
        | some st2 =>
          simp only [hstart] at hex
          cases hbody : exec L callee body st2 with
          | error e => simp [hbody] at hex
          | ok res2 =>
            simp only [hbody] at hex
            obtain ⟨f2, hst2⟩ := startCall_stack L (.contr addr) callee amt _ st2 hstart
            have hst2' : st2.cs.stack = f2 :: f :: rest := by
              have hmid : ({ st with energy := e1 } : St).cs.stack = f :: rest := hstack
              rw [hmid] at hst2
              exact hst2
            obtain ⟨⟨f3, hf3⟩, hnnBody⟩ := ihBody callee st2 res2 f2 (f :: rest) hbody hst2'
            have hcs2 : res2.st.cs = ⟨f3 :: f :: rest⟩ := congrArg ChangeSet.mk hf3
            cases hfin : res2.fin with
            | success =>
              simp only [settleCall, hfin] at hex
              have hpc : res2.st.cs.pop_commit = ⟨mergeFrames f f3 :: rest⟩ := by
                rw [hcs2]
                rfl
              have hstack3 : res2.st.cs.pop_commit.stack = mergeFrames f f3 :: rest :=
                congrArg ChangeSet.stack hpc
              have hres3 := ihRest addr _ res (mergeFrames f f3) rest hex hstack3
              refine ⟨hres3.1, fun hnn => hres3.2 ?_⟩
              have hnn2 : NonNeg L st2.cs :=
                startCall_nonneg L (.contr addr) callee amt _ st2 hstart hnn
              exact nonNeg_pop_commit L res2.st.cs (hnnBody hnn2)
            | reject =>
              simp only [settleCall, hfin] at hex
              have hpd : res2.st.cs.pop_discard = ⟨f :: rest⟩ := by
                rw [hcs2]
                rfl
              have hstack3 : res2.st.cs.pop_discard.stack = f :: rest :=
                congrArg ChangeSet.stack hpd
              have hres3 := ihRest addr _ res f rest hex hstack3
              refine ⟨hres3.1, fun hnn => hres3.2 ?_⟩
              have hst_eq : st.cs = ⟨f :: rest⟩ := congrArg ChangeSet.mk hstack
              rw [hpd, ← hst_eq]
              exact hnn
            | trap =>
              simp only [settleCall, hfin] at hex
              have hpd : res2.st.cs.pop_discard = ⟨f :: rest⟩ := by
                rw [hcs2]
                rfl
              have hstack3 : res2.st.cs.pop_discard.stack = f :: rest :=
                congrArg ChangeSet.stack hpd
              have hres3 := ihRest addr _ res f rest hex hstack3
              refine ⟨hres3.1, fun hnn => hres3.2 ?_⟩
              have hst_eq : st.cs = ⟨f :: rest⟩ := congrArg ChangeSet.mk hstack
              rw [hpd, ← hst_eq]
              exact hnn

/-- C1: rollback isolation of a failed nested call.  When the body of a
nested call ends in reject or trap, settling the call discards the
callee's frame and truncates the trace log to the checkpoint taken when
the call began: the change stack returned to the caller is exactly the
one from before the call started, so every account balance, contract
balance, contract state, contract module and modification index touched
within the failed sub-tree is unchanged, while the changes committed by
sibling calls that completed earlier (already merged into the caller's
frames, part of the stack at the checkpoint) remain. -/
theorem claim_C1_rollback_isolation (L : Ledger) (caller callee : Nat) (amt : Nat)
    (body : EngineScript) (st st2 : St) (res2 : ExecRes) (f : Changes)
    (rest : List Changes)
    (hstack : st.cs.stack = f :: rest)
    (hstart : startCall L (.contr caller) callee amt st = .ok (some st2))
    (hbody : exec L callee body st2 = .ok res2)
    (hfail : res2.fin ≠ .success) :
    (settleCall caller st.trace res2).2.cs = st.cs ∧
    (settleCall caller st.trace res2).2.trace = st.trace ∧
    (∀ a, effAcc L (settleCall caller st.trace res2).2.cs a = effAcc L st.cs a) ∧
    (∀ c, effContr L (settleCall caller st.trace res2).2.cs c = effContr L st.cs c) ∧
    (∀ c, viewState L (settleCall caller st.trace res2).2.cs c = viewState L st.cs c) ∧
    (∀ c, viewModule L (settleCall caller st.trace res2).2.cs c = viewModule L st.cs c) ∧
    (∀ c, observedIdx (settleCall caller st.trace res2).2.cs c = observedIdx st.cs c) := by
  obtain ⟨f2, hst2⟩ := startCall_stack L (.contr caller) callee amt st st2 hstart
  have hst2' : st2.cs.stack = f2 :: f :: rest := by rw [hst2, hstack]
  obtain ⟨⟨f3, hf3⟩, -⟩ :=
    exec_shape_nonneg L body callee st2 res2 f2 (f :: rest) hbody hst2'
  have hcs2 : res2.st.cs = ⟨f3 :: f :: rest⟩ := congrArg ChangeSet.mk hf3
  have hst_eq : st.cs = ⟨f :: rest⟩ := congrArg ChangeSet.mk hstack
  have hmain : (settleCall caller st.trace res2).2.cs = st.cs ∧
      (settleCall caller st.trace res2).2.trace = st.trace := by
    cases hfin : res2.fin with
    | success => exact absurd hfin hfail
    | reject =>
      simp only [settleCall, hfin]
      refine ⟨?_, by trivial⟩
      rw [hcs2, hst_eq]
      rfl
    | trap =>
      simp only [settleCall, hfin]
      refine ⟨?_, by trivial⟩
      rw [hcs2, hst_eq]
      rfl
  refine ⟨hmain.1, hmain.2, ?_, ?_, ?_, ?_, ?_⟩ <;> intro x <;> rw [hmain.1]

/-- Concrete instantiation of rollback isolation: contract 1 calls
contract 2 with amount 5, the callee writes its state, transfers 2 to
account 3 and then rejects; settling restores the caller's exact change
stack and hence the effective balances. -/
theorem claim_C1_rollback_isolation_witness :
    wRes1.fin = .reject ∧
    (settleCall 1 wSt.trace wRes1).2.cs = wSt.cs ∧
    effAcc wL (settleCall 1 wSt.trace wRes1).2.cs 3 = effAcc wL wSt.cs 3 ∧
    viewState wL (settleCall 1 wSt.trace wRes1).2.cs 2 = viewState wL wSt.cs 2 := by
  have h := claim_C1_rollback_isolation wL 1 2 5
    (.writeState 42 (.transfer 3 2 (.done .reject))) wSt wStart1 wRes1
    emptyChanges [] rfl rfl rfl (by decide)
  exact ⟨by decide, h.1, h.2.2.1 3, h.2.2.2.2.1 2⟩

/-- C5: modification index monotonicity.  A direct write to a contract's
own state or module makes the observed modification index strictly
greater (by exactly one); it leaves the observed index of every other
contract address unchanged; and neither pushing a frame nor resolving a
transfer changes the observed index of any contract. -/
theorem claim_C5_modification_index (L : Ledger) (cs : ChangeSet) (c h m : Nat)
    (f : Changes) (rest : List Changes) (fromC toA amt : Nat) (cs' : ChangeSet)
    (hstack : cs.stack = f :: rest)
    (htr : resolveTransfer L cs fromC toA amt = .ok (some cs')) :
    (observedIdx cs c < observedIdx (cs.writeStateOp L c h) c ∧
     observedIdx (cs.writeStateOp L c h) c = observedIdx cs c + 1) ∧
    (∀ b, b ≠ c → observedIdx (cs.writeStateOp L c h) b = observedIdx cs b) ∧
    (observedIdx cs c < observedIdx (cs.writeModuleOp L c m) c ∧
     observedIdx (cs.writeModuleOp L c m) c = observedIdx cs c + 1) ∧
    (∀ b, b ≠ c → observedIdx (cs.writeModuleOp L c m) b = observedIdx cs b) ∧
    (∀ x, observedIdx cs.push_frame x = observedIdx cs x) ∧
    (∀ x, observedIdx cs' x = observedIdx cs x) := by
  have hS : observedIdx (cs.writeStateOp L c h) c = observedIdx cs c + 1 := by
    unfold ChangeSet.writeStateOp
    rw [observedIdx_touchContract_self L cs c _ f rest hstack]
    simp only
    rw [contrEntryOrFresh_idx L cs f rest c hstack]
  have hM : observedIdx (cs.writeModuleOp L c m) c = observedIdx cs c + 1 := by
    unfold ChangeSet.writeModuleOp
    rw [observedIdx_touchContract_self L cs c _ f rest hstack]
    simp only
    rw [contrEntryOrFresh_idx L cs f rest c hstack]
  refine ⟨⟨by omega, hS⟩, ?_, ⟨by omega, hM⟩, ?_, ?_, ?_⟩
  · intro b hb
    unfold ChangeSet.writeStateOp
    exact observedIdx_touchContract_other L cs c _ b hb
  · intro b hb
    unfold ChangeSet.writeModuleOp
    exact observedIdx_touchContract_other L cs c _ b hb
  · intro x
    simp [observedIdx, ChangeSet.push_frame, ChangeSet.lookupContract,
      lookupContractFrames, emptyChanges]
  · intro x
    exact (resolveTransfer_effects L cs fromC toA amt cs' f rest hstack htr).2.2.2.2.2 x

/-- Concrete instantiation of modification index monotonicity: writing
state handle 5 to contract 9 on a stack whose bottom frame already
tracks contract 9 at index 2 raises the observed index from 2 to 3 and
leaves contract 7 at 0. -/
theorem claim_C5_modification_index_witness :
    observedIdx ⟨[emptyChanges, wB]⟩ 9 = 2 ∧
    observedIdx ((⟨[emptyChanges, wB]⟩ : ChangeSet).writeStateOp wL 9 5) 9 = 3 ∧
    observedIdx ((⟨[emptyChanges, wB]⟩ : ChangeSet).writeStateOp wL 9 5) 7 =
      observedIdx ⟨[emptyChanges, wB]⟩ 7 ∧
    (∀ x, observedIdx wCs6 x = observedIdx wSt.cs x) := by
  have h := claim_C5_modification_index wL ⟨[emptyChanges, wB]⟩ 9 5 5 emptyChanges [wB]
    1 3 7 wCs5 rfl rfl
  refine ⟨by decide, ?_, h.2.1 7 (by decide), ?_⟩
  · rw [h.1.2]
    decide
  · intro x
    have h6 := claim_C5_modification_index wL wSt.cs 9 5 5 emptyChanges [] 1 3 7 wCs6
      rfl rfl
    exact h6.2.2.2.2.2 x

theorem resolveTransfer_error (L : Ledger) (cs : ChangeSet) (fromC toA : Nat)
    (amt : Nat) (err : TestConfigurationError)
    (h : resolveTransfer L cs fromC toA amt = .error err) :
    err = .BalanceOverflow ∧ (amountBound : Int) ≤ effAcc L cs toA + (amt : Int) := by
  unfold resolveTransfer at h
  split_ifs at h with h1 h2 h3
  all_goals simp at h
  exact ⟨h.symm, h3⟩

/-- C6: balance conservation and non-negativity.  A resolved transfer
changes the top-frame deltas of sender and receiver by amounts that sum
to zero (receiver up by the amount, sender down by the amount, nothing
else changed); executing any engine script from a state in which all
available balances are non-negative never produces a state with a
negative available balance; and an overflow during transfer resolution
is the fatal configuration error BalanceOverflow which aborts the
execution, not a recoverable contract rejection. -/
theorem claim_C6_balance_conservation (L : Ledger) (cs : ChangeSet)
    (fromC toA : Nat) (amt : Nat) (cs' : ChangeSet) (f : Changes)
    (rest : List Changes) (t : EngineScript) (addr : Nat) (st : St) (res : ExecRes)
    (f1 : Changes) (rest1 : List Changes) (st' : St) (e1 : Nat) (addr2 : Nat)
    (toA2 amt2 : Nat) (r2 : EngineScript) (err : TestConfigurationError)
    (hstack : cs.stack = f :: rest)
    (htr : resolveTransfer L cs fromC toA amt = .ok (some cs'))
    (hex : exec L addr t st = .ok res)
    (hstack1 : st.cs.stack = f1 :: rest1)
    (hnn : NonNeg L st.cs)
    (htick : tickEnergy st'.energy = .ok e1)
    (hfat : resolveTransfer L st'.cs addr2 toA2 amt2 = .error err) :
    (∃ f2, cs'.stack = f2 :: rest ∧
      (frameAccDelta f2 toA - frameAccDelta f toA) +
        (frameContrDelta f2 fromC - frameContrDelta f fromC) = 0 ∧
      effAcc L cs' toA = effAcc L cs toA + (amt : Int) ∧
      effContr L cs' fromC = effContr L cs fromC - (amt : Int)) ∧
    NonNeg L res.st.cs ∧
    (err = .BalanceOverflow ∧ exec L addr2 (.transfer toA2 amt2 r2) st' = .error err) := by
  obtain ⟨⟨f2, hf2⟩, hacc, -, hcontr, -, -⟩ :=
    resolveTransfer_effects L cs fromC toA amt cs' f rest hstack htr
  have hcs' : cs' = ⟨f2 :: rest⟩ := congrArg ChangeSet.mk hf2
  have hcs : cs = ⟨f :: rest⟩ := congrArg ChangeSet.mk hstack
  refine ⟨⟨f2, hf2, ?_, hacc, hcontr⟩, ?_, ?_⟩
  · rw [hcs', hcs] at hacc hcontr
    simp only [effAcc, effContr, stackAccDelta, stackContrDelta] at hacc hcontr
    omega
  · exact (exec_shape_nonneg L t addr st res f1 rest1 hex hstack1).2 hnn
  · obtain ⟨herr, -⟩ := resolveTransfer_error L st'.cs addr2 toA2 amt2 err hfat
    refine ⟨herr, ?_⟩
    simp [exec, htick, hfat]

/-- Concrete instantiation of balance conservation: contract 1 transfers
7 to account 3 (deltas sum to zero, balances shift by 7), the run stays
non-negative, and transferring 7 to account 9 (one unit below the
amount bound) fails fatally with BalanceOverflow. -/
theorem claim_C6_balance_conservation_witness :
    effAcc wL wCs6 3 = effAcc wL wSt.cs 3 + 7 ∧
    effContr wL wCs6 1 = effContr wL wSt.cs 1 - 7 ∧
    NonNeg wL wRes6.st.cs ∧
    exec wL 1 (.transfer 9 7 (.done .success)) wSt = .error .BalanceOverflow := by
  have hnn : NonNeg wL wSt.cs := by
    constructor
    · intro a
      simp only [effAcc, wSt, stackAccDelta, frameAccDelta, emptyChanges]
      have : (0 : Int) ≤ wL.accBal a := Int.natCast_nonneg _
      omega
    · intro c
      simp only [effContr, wSt, stackContrDelta, frameContrDelta, emptyChanges]
      have : (0 : Int) ≤ wL.contrBal c := Int.natCast_nonneg _
      omega
  have h := claim_C6_balance_conservation wL wSt.cs 1 3 7 wCs6 emptyChanges []
    (.transfer 3 7 (.done .success)) 1 wSt wRes6 emptyChanges [] wSt 49 1 9 7
    (.done .success) .BalanceOverflow rfl rfl rfl rfl hnn rfl rfl
  obtain ⟨⟨f2, -, -, hacc, hcontr⟩, hnnRes, -, hfatal⟩ := h
  exact ⟨hacc, hcontr, hnnRes, hfatal⟩

/-- C4: out-of-energy is fatal to the whole transaction.  When the
remaining energy would go to or below zero the top-level invocation
fails with OutOfEnergy; a fatal error inside a nested call propagates
out of the enclosing call unchanged instead of being handled like an
ordinary reject; the failure payload surfaced to the transaction layer
is OutOfEnergy or BalanceOverflow and nothing else; and on such a
failure no contract state, contract balance or third-party account
balance is committed. -/
theorem claim_C4_out_of_energy (L : Ledger) (invoker addr : Nat) (amt energy : Nat)
    (tree : EngineScript) (caller callee : Nat) (amt2 : Nat) (body r : EngineScript)
    (st st2 : St) (e1 : Nat) (err errF : TestConfigurationError) (ch : Chain)
    (invoker2 addr2 : Nat) (amt3 energy3 : Nat) (tree3 : EngineScript)
    (he : energy ≤ 1)
    (htick : tickEnergy st.energy = .ok e1)
    (hstart : startCall L (.contr caller) callee amt2 { st with energy := e1 } =
      .ok (some st2))
    (hbody : exec L callee body st2 = .error err)
    (hfatal : invoke_entrypoint ch.ledger invoker2 addr2 amt3 energy3 tree3 =
      .error errF) :
    invoke_entrypoint L invoker addr amt energy tree = .error .OutOfEnergy ∧
    exec L caller (.callThen callee amt2 body r) st = .error err ∧
    (errF = .OutOfEnergy ∨ errF = .BalanceOverflow) ∧
    ((contract_update ch invoker2 addr2 amt3 energy3 tree3).2.ledger.contrState =
       ch.ledger.contrState ∧
     (contract_update ch invoker2 addr2 amt3 energy3 tree3).2.ledger.contrBal =
       ch.ledger.contrBal ∧
     ∀ a, a ≠ invoker2 →
       (contract_update ch invoker2 addr2 amt3 energy3 tree3).2.ledger.accBal a =
         ch.ledger.accBal a) := by
  refine ⟨?_, ?_, ?_, ?_⟩
  · simp [invoke_entrypoint, tickEnergy, he]
  · simp [exec, htick, hstart, hbody]
  · cases errF
    · exact Or.inl rfl
    · exact Or.inr rfl
  · simp only [contract_update, hfatal]
    exact ⟨rfl, rfl, fun a ha => by simp [chargeFee, ha]⟩

/-- Concrete instantiation of energy fatality: a budget of 1 fails the
lookup charge; with 2 units the tick leaves 1 and the nested call's
first step aborts the enclosing call with OutOfEnergy; the fatal error
leaves the persisted state of all contracts and of account 4
unchanged. -/
theorem claim_C4_out_of_energy_witness :
    invoke_entrypoint wL 0 1 0 1 (.done .success) = .error .OutOfEnergy ∧
    exec wL 1 (.callThen 2 0 (.log 0 (.done .success)) (.done .success)) wSt4 =
      .error .OutOfEnergy ∧
    (contract_update wCh 0 1 0 1 (.done .success)).2.ledger.accBal 4 =
      wCh.ledger.accBal 4 := by
  have h := claim_C4_out_of_energy wL 0 1 0 1 (.done .success) 1 2 0
    (.log 0 (.done .success)) (.done .success) wSt4 wStart4 1 .OutOfEnergy .OutOfEnergy
    wCh 0 1 0 1 (.done .success) (by omega) rfl rfl rfl rfl
  exact ⟨h.1, h.2.1, h.2.2.2.2.2 4 (by decide)⟩

theorem exec_dirs (L : Ledger) (t : EngineScript) :
    ∀ (addr : Nat) (st : St) (res : ExecRes),
      exec L addr t st = .ok res →
      (∀ d ∈ st.dirs, dirOk d = true) →
      ∀ d ∈ res.st.dirs, dirOk d = true := by
  induction t with
  | done fin =>
    intro addr st res hex hdirs
    simp only [exec, Except.ok.injEq] at hex
    subst hex
    exact hdirs
  | log n r ih =>
    intro addr st res hex hdirs
    simp only [exec] at hex
    cases htick : tickEnergy st.energy with
    | error e => simp [htick] at hex
    | ok e1 =>
      simp only [htick] at hex
      cases hrec : exec L addr r { st with energy := e1 } with
      | error e => simp [hrec] at hex
      | ok r2 =>
        simp only [hrec, Except.ok.injEq] at hex
        subst hex
        exact ih addr { st with energy := e1 } r2 hrec hdirs
  | writeState hv r ih =>
    intro addr st res hex hdirs
    simp only [exec] at hex
    cases htick : tickEnergy st.energy with
    | error e => simp [htick] at hex
    | ok e1 =>
      simp only [htick] at hex
      exact ih addr _ res hex hdirs
  | writeModule mv r ih =>
    intro addr st res hex hdirs
    simp only [exec] at hex
    cases htick : tickEnergy st.energy with
    | error e => simp [htick] at hex
    | ok e1 =>
      simp only [htick] at hex
      exact ih addr _ res hex hdirs
  | transfer toA amt r ih =>
    intro addr st res hex hdirs
    simp only [exec] at hex
    cases htick : tickEnergy st.energy with
    | error e => simp [htick] at hex
    | ok e1 =>
      simp only [htick] at hex
      cases hres : resolveTransfer L st.cs addr toA amt with
      | error e => simp [hres] at hex
      | ok o =>
        cases o with
        | none =>
          simp only [hres] at hex
          refine ih addr _ res hex ?_
          intro d hd
          simp only [List.mem_append, List.mem_singleton] at hd
          cases hd with
          | inl hin => exact hdirs d hin
          | inr hnew => subst hnew; rfl
        | some cs' =>
          simp only [hres] at hex
          refine ih addr _ res hex ?_
          intro d hd
          simp only [List.mem_append, List.mem_singleton] at hd
          cases hd with
          | inl hin => exact hdirs d hin
          | inr hnew => subst hnew; rfl
  | query q r ih =>
    intro addr st res hex hdirs
    simp only [exec] at hex
    cases htick : tickEnergy st.energy with
    | error e => simp [htick] at hex
    | ok e1 =>
      simp only [htick] at hex
      refine ih addr _ res hex ?_
      intro d hd
      simp only [List.mem_append, List.mem_singleton] at hd
      cases hd with
      | inl hin => exact hdirs d hin
      | inr hnew => subst hnew; rfl
  | callThen callee amt body r ihBody ihRest =>
    intro addr st res hex hdirs
    simp only [exec] at hex
    cases htick : tickEnergy st.energy with
    | error e => simp [htick] at hex
    | ok e1 =>
      simp only [htick] at hex
      cases hstart : startCall L (.contr addr) callee amt { st with energy := e1 } with
      | error e => simp [hstart] at hex
      | ok o =>
        cases o with
        | none =>
          simp only [hstart] at hex
          refine ihRest addr _ res hex ?_
          intro d hd
          simp only [List.mem_append, List.mem_singleton] at hd
          cases hd with
          | inl hin => exact hdirs d hin
          | inr hnew => subst hnew; rfl
        | some st2 =>
          simp only [hstart] at hex
          cases hbody : exec L callee body st2 with
          | error e => simp [hbody] at hex
          | ok res2 =>
            simp only [hbody] at hex
            have hdirs2 : ∀ d ∈ st2.dirs, dirOk d = true := by
              obtain ⟨-, -, hst2⟩ :=
                startCall_ok_some L (.contr addr) callee amt _ st2 hstart
              subst hst2
              intro d hd
              simp only [List.mem_append, List.mem_singleton] at hd
              cases hd with
              | inl hin => exact hdirs d hin
              | inr hnew => subst hnew; rfl
            have hdirsBody := ihBody callee st2 res2 hbody hdirs2
            cases hfin : res2.fin with
            | success =>
              simp only [settleCall, hfin] at hex
              refine ihRest addr _ res hex ?_
              intro d hd
              simp only [List.mem_append, List.mem_singleton] at hd
              cases hd with
              | inl hin => exact hdirsBody d hin
              | inr hnew => subst hnew; rfl
            | reject =>
              simp only [settleCall, hfin] at hex
              refine ihRest addr _ res hex ?_
              intro d hd
              simp only [List.mem_append, List.mem_singleton] at hd
              cases hd with
              | inl hin => exact hdirsBody d hin
              | inr hnew => subst hnew; rfl
            | trap =>
              simp only [settleCall, hfin] at hex
              refine ihRest addr _ res hex ?_
              intro d hd
              simp only [List.mem_append, List.mem_singleton] at hd
              cases hd with
              | inl hin => exact hdirsBody d hin
              | inr hnew => subst hnew; rfl

/-- C7 (amended): for every Resume directive produced by the driver, the
optional response value is present exactly when the directive reacts to
an immediately handled interrupt (a resolved transfer, a query, or a
call whose amount check failed before dispatch), and it is absent
exactly when the driver resumes after a call to a contract that was run
to completion, in accordance with the source comment on
Next::Resume.response in types.rs. -/
theorem claim_C7_resume_response (L : Ledger) (invoker addr : Nat) (amt energy : Nat)
    (tree : EngineScript) (resp : InvokeEntrypointResponse) (st' : St)
    (h : invoke_entrypoint L invoker addr amt energy tree = .ok (resp, st')) :
    ∀ d ∈ st'.dirs, dirOk d = true := by
  simp only [invoke_entrypoint] at h
  cases htick : tickEnergy energy with
  | error e => simp [htick] at h
  | ok e1 =>
    simp only [htick] at h
    cases hstart : startCall L (.acc invoker) addr amt
        { cs := ⟨[]⟩, energy := e1, trace := [], dirs := [] } with
    | error e => rw [hstart] at h; simp at h
    | ok o =>
      rw [hstart] at h
      cases o with
      | none =>
        simp only [Except.ok.injEq, Prod.mk.injEq] at h
        obtain ⟨-, hst⟩ := h
        subst hst
        intro d hd
        simp at hd
      | some st2 =>
        have hdirs2 : ∀ d ∈ st2.dirs, dirOk d = true := by
          obtain ⟨-, -, hst2⟩ :=
            startCall_ok_some L (.acc invoker) addr amt _ st2 hstart
          subst hst2
          intro d hd
          simp only [List.mem_append, List.mem_singleton] at hd
          cases hd with
          | inl hin => simp at hin
          | inr hnew => subst hnew; rfl
        cases hexec : exec L addr tree st2 with
        | error e => simp [hexec] at h
        | ok res =>
          simp only [hexec] at h
          have hall := exec_dirs L tree addr st2 res hexec hdirs2
          cases hfin : res.fin with
          | success =>
            simp only [hfin] at h
            simp only [Except.ok.injEq, Prod.mk.injEq] at h
            obtain ⟨-, hst⟩ := h
            subst hst
            exact hall
          | reject =>
            simp only [hfin] at h
            simp only [Except.ok.injEq, Prod.mk.injEq] at h
            obtain ⟨-, hst⟩ := h
            subst hst
            exact hall
          | trap =>
            simp only [hfin] at h
            simp only [Except.ok.injEq, Prod.mk.injEq] at h
            obtain ⟨-, hst⟩ := h
            subst hst
            exact hall

/-- C7 counterexample: on the run in which contract 1 calls contract 2
and the sub-call completes successfully, the Resume directive produced
for the caller after the completed sub-call carries no response value
(the trace is shown in full); this falsifies the claim that the response
is present when the resumption follows a completed sub-call. -/
theorem claim_C7_resume_response_counterexample :
    ((exec wL 1 (.callThen 2 0 (.done .success) (.done .success)) wSt).toOption.map
      (fun r => (r.st.dirs, resumesAfterSubcallHaveResponse r.st.dirs))) =
    some ([(.callCompleted, .Initial (Party.contr 1) 0),
           (.callCompleted, .Resume 1 none)], false) := by
  decide

/-- Concrete instantiation of the amended directive discipline: the
Resume directive produced after the completed sub-call satisfies the
response discipline of the source comment (absent for a completed
call). -/
theorem claim_C7_resume_response_witness :
    dirOk (.callCompleted, .Resume 1 none) = true := by
  exact claim_C7_resume_response wL 0 1 0 50
    (.callThen 2 0 (.done .success) (.done .success)) wPair7.1 wPair7.2 rfl
    (.callCompleted, .Resume 1 none) (by decide)

/-- C8 (amended): the logs of an InvokeEntrypointResponse can be
non-empty only when the invoke_response is Success; when the result is
Reject or Trap the returned logs are empty. -/
theorem claim_C8_logs_only_if_success (L : Ledger) (invoker addr : Nat)
    (amt energy : Nat) (tree : EngineScript) (resp : InvokeEntrypointResponse)
    (st' : St)
    (h : invoke_entrypoint L invoker addr amt energy tree = .ok (resp, st')) :
    (resp.invoke_response ≠ .success → resp.logs = []) ∧
    (resp.logs ≠ [] → resp.invoke_response = .success) := by
  simp only [invoke_entrypoint] at h
  cases htick : tickEnergy energy with
  | error e => simp [htick] at h
  | ok e1 =>
    simp only [htick] at h
    cases hstart : startCall L (.acc invoker) addr amt
        { cs := ⟨[]⟩, energy := e1, trace := [], dirs := [] } with
    | error e => rw [hstart] at h; simp at h
    | ok o =>
      rw [hstart] at h
      cases o with
      | none =>
        simp only [Except.ok.injEq, Prod.mk.injEq] at h
        obtain ⟨hresp, -⟩ := h
        subst hresp
        exact ⟨fun _ => rfl, fun hl => absurd rfl hl⟩
      | some st2 =>
        cases hexec : exec L addr tree st2 with
        | error e => simp [hexec] at h
        | ok res =>
          simp only [hexec] at h
          cases hfin : res.fin with
          | success =>
            simp only [hfin] at h
            simp only [Except.ok.injEq, Prod.mk.injEq] at h
            obtain ⟨hresp, -⟩ := h
            subst hresp
            constructor
            · intro hne
              simp [mkResponse, hfin] at hne
            · intro _
              simp [mkResponse, hfin]
          | reject =>
            simp only [hfin] at h
            simp only [Except.ok.injEq, Prod.mk.injEq] at h
            obtain ⟨hresp, -⟩ := h
            subst hresp
            constructor
            · intro _
              simp [mkResponse, hfin]
            · intro hl
              simp [mkResponse, hfin] at hl
          | trap =>
            simp only [hfin] at h
            simp only [Except.ok.injEq, Prod.mk.injEq] at h
            obtain ⟨hresp, -⟩ := h
            subst hresp
            constructor
            · intro _
              simp [mkResponse, hfin]
            · intro hl
              simp [mkResponse, hfin] at hl

/-- C8 counterexample: a successful invocation in which the engine emits
no log entries returns Success with empty logs, so "the logs field has
entries if and only if the invoke_response is Success" is false at this
input (the if-direction fails). -/
theorem claim_C8_logs_only_if_success_counterexample :
    ((invoke_entrypoint wL 0 1 0 50 (.done .success)).toOption.map
      (fun p => (p.1.invoke_response, p.1.logs,
        decide (p.1.logs ≠ [] ↔ p.1.invoke_response = .success)))) =
    some (.success, [], false) := by
  decide

/-- Concrete instantiation of the amended logs property: a rejecting run
that logged entry 6 still returns empty logs. -/
theorem claim_C8_logs_only_if_success_witness :
    wPair8.1.invoke_response = .reject ∧ wPair8.1.logs = [] := by
  have h := claim_C8_logs_only_if_success wL 0 1 0 50 (.log 6 (.done .reject))
    wPair8.1 wPair8.2 rfl
  exact ⟨by decide, h.1 (by decide)⟩

/-- C10: a read-only contract invocation charges no transaction fee and
leaves every persisted account balance (and the whole chain) unchanged,
unlike contract_update which commits and charges. -/
theorem claim_C10_invoke_read_only (ch : Chain) (invoker addr : Nat)
    (amt energy : Nat) (tree : EngineScript) (resp : InvokeEntrypointResponse)
    (h : (contract_invoke ch invoker addr amt energy tree).1 = .ok resp)
    (hs : resp.invoke_response = .success) :
    (contract_invoke ch invoker addr amt energy tree).2 = ch ∧
    (∀ a, ((contract_invoke ch invoker addr amt energy tree).2).account_balance_available a =
      ch.account_balance_available a) := by
  exact ⟨rfl, fun a => rfl⟩

/-- Concrete instantiation of the read-only invocation: a successful
invoke leaves account 0 with its exact prior available balance. -/
theorem claim_C10_invoke_read_only_witness :
    wResp10.invoke_response = .success ∧
    ((contract_invoke wCh 0 1 0 50 (.done .success)).2).account_balance_available 0 =
      wCh.account_balance_available 0 := by
  have h := claim_C10_invoke_read_only wCh 0 1 0 50 (.done .success) wResp10 rfl
    (by decide)
  exact ⟨by decide, h.2 0⟩
